import Mathlib

/-!
# IBScpp: the k-mer IBS matrix tool and the k-mer database look-ups

A shallow embedding of `kmer_ibs_pp.cpp` (the worker `partial_matrix` and the
layout, partition, reduction and output steps of `main`) and of `src/kmerdb.cpp`
(`is_canonized_kmer_representation_flag`, `read_kmer_db_hash`,
`find_kmer_db_hash`, `read_kmer_db_vector`, `find_kmer_db_vector`), followed by
the properties proved about them.

Conventions of the embedding.

* `uint64_t`, `size_t`, `uint32_t` values are natural numbers; every operation
  that can wrap is written with an explicit `% 2 ^ 64` (or `% 2 ^ 32`).
* A file is the list of its bytes. An `ifstream` is the file content, the read
  position and the state of the stream (`good` or failed).
* `uint64_t **` matrices and `vector<uint64_t>` are lists; a read outside a
  list is undefined in C++ and yields the default `0` here (every theorem
  below is stated where the indices are inside the allocation).
* A `for` loop over `0 .. n-1` is a `List.foldl` over `List.range n`.
-/

namespace IBScpp

/-! ## Machine arithmetic -/

/-- The modulus of `uint64_t` arithmetic. -/
def U64 : Nat := 2 ^ 64

/-- Unsigned 64-bit subtraction `a - b`. -/
def sub64 (a b : Nat) : Nat := (a % U64 + (U64 - b % U64)) % U64

/-- The conversion `(int)x` of a `uint64_t` followed by the implicit conversion
back to `uint64_t` when the value is stored in a `vector<uint64_t>`: the low 32
bits are kept and read as a two's complement number, which is then sign
extended to 64 bits. -/
def int_cast_u64 (x : Nat) : Nat :=
  if x % 2 ^ 32 < 2 ^ 31 then x % 2 ^ 32 else x % 2 ^ 32 + (U64 - 2 ^ 32)

/-- Modelled from the spec: the constant `WLEN` of `kmer_general.h` (not among
the sources), the number of bits of a presence word; the spec locates sample
`i` at word `i >> 6`, bit `i & 63`, and takes `W = ceil(sample_count / 64)`. -/
def WLEN : Nat := 64

/-! ## Matrices (`uint64_t **`) -/

/-- The allocation of lines 50-53: `sample_size` rows of `sample_size` zeros. -/
def calloc_matrix (sample_size : Nat) : List (List Nat) :=
  List.replicate sample_size (List.replicate sample_size 0)

/-- The entry `m[r][c]`. -/
def mget (m : List (List Nat)) (r c : Nat) : Nat := (m.getD r []).getD c 0

/-- The statement `m[r][c] += v` on `uint64_t` entries. -/
def madd (m : List (List Nat)) (r c v : Nat) : List (List Nat) :=
  m.set r ((m.getD r []).set c ((mget m r c + v) % U64))

/-! ## The table file and its stream -/

/-- The value of a little-endian sequence of bytes. -/
def le_value (bytes : List Nat) : Nat :=
  bytes.foldr (fun b acc => b % 256 + 256 * acc) 0

/-- The eight bytes of a `uint64_t` in memory, least significant first. -/
def bytes_of_word (w : Nat) : List Nat :=
  (List.range 8).map (fun i => (w >>> (8 * i)) % 256)

/-- The memory of a `vector<uint64_t>` as bytes. -/
def bytes_of_words (ws : List Nat) : List Nat :=
  (ws.map bytes_of_word).flatten

/-- The `n` words held by a memory area of `8 * n` bytes. -/
def words_of_bytes (n : Nat) (bytes : List Nat) : List Nat :=
  (List.range n).map (fun i => le_value ((bytes.drop (8 * i)).take 8))

/-- An open `ifstream`: the bytes of the file, the read position, and whether
the stream is still good (no `failbit`/`eofbit`). -/
structure IfStream where
  content : List Nat
  pos : Nat
  good : Bool
deriving DecidableEq

/-- The call `seekg(offset, ios::beg)` with a `uint64_t` offset: the offset is
converted to the signed `streamoff`, and a negative one makes the seek fail
(the stream is no longer good); any other position is accepted, also one past
the end of the file. -/
def IfStream.seekg (s : IfStream) (offset : Nat) : IfStream :=
  if offset < 2 ^ 63 then { s with pos := offset }
  else { s with good := false }

/-- The call `read(reinterpret_cast<char *>(buffer.data()),
sizeof(uint64_t) * buffer.size())`: on a failed stream nothing is read and the
buffer keeps its content; otherwise the bytes available are copied over the
start of the buffer, and the stream fails when they are fewer than asked. -/
def IfStream.read (s : IfStream) (buffer : List Nat) : IfStream × List Nat :=
  if s.good then
    let got := (s.content.drop s.pos).take (8 * buffer.length)
    if got.length = 8 * buffer.length then
      ({ s with pos := s.pos + 8 * buffer.length }, words_of_bytes buffer.length got)
    else
      ({ s with pos := s.pos + got.length, good := false },
        words_of_bytes buffer.length (got ++ (bytes_of_words buffer).drop got.length))
  else (s, buffer)

/-! ## `partial_matrix` (kmer_ibs_pp.cpp, lines 39-91) -/

/-- The presence bit of sample `col_index` in a record buffer (line 71):
`buffer[(col_index >> 6) + 1] >> (col_index & (WLEN-1)) & 1ull`. -/
def new_bit (buffer : List Nat) (col_index : Nat) : Nat :=
  (buffer.getD ((col_index >>> 6) + 1) 0 >>> (col_index &&& (WLEN - 1))) &&& 1

/-- The value of `!(a ^ b)` as added to a matrix entry (line 77). -/
def not_xor (a b : Nat) : Nat := if (a ^^^ b) = 0 then 1 else 0

/-- The loop of lines 75-78 for one `col_index`. -/
def sample_loop (col_index : Nat) (pattern : List Nat) (p_matrix : List (List Nat)) :
    List (List Nat) :=
  (List.range (col_index + 1)).foldl
    (fun m sample_index1 =>
      madd m col_index sample_index1
        (not_xor (pattern.getD col_index 0) (pattern.getD sample_index1 0)))
    p_matrix

/-- The loop of lines 70-79 for one record buffer: it returns the updated
`pattern` and matrix. -/
def col_loop (sample_size : Nat) (buffer : List Nat)
    (pattern : List Nat) (p_matrix : List (List Nat)) : List Nat × List (List Nat) :=
  (List.range sample_size).foldl
    (fun st col_index =>
      let pattern1 := st.1.set col_index (new_bit buffer col_index)
      (pattern1, sample_loop col_index pattern1 st.2))
    (pattern, p_matrix)

/-- The `while (i_kt < kmer_number)` loop of lines 65-81; the first argument is
the number of iterations left, `kmer_number - i_kt`. `advance_row` is never
reset, so every iteration reads. -/
def kmer_loop (sample_size : Nat) :
    Nat → IfStream → List Nat → List Nat → List (List Nat) → List (List Nat)
  | 0, _, _, _, p_matrix => p_matrix
  | left + 1, table_handle, buffer, pattern, p_matrix =>
    let rd := table_handle.read buffer
    let st := col_loop sample_size rd.2 pattern p_matrix
    kmer_loop sample_size left rd.1 rd.2 st.1 st.2

/-- The worker `partial_matrix`. `table` is the content of the table file, or
`none` when the file cannot be opened (the worker then returns the zero
matrix). -/
def partial_matrix (table : Option (List Nat)) (offset words_per_kmer kmer_number
    sample_size : Nat) : List (List Nat) :=
  match table with
  | some content =>
    let table_handle := IfStream.seekg { content := content, pos := content.length, good := true } offset
    kmer_loop sample_size kmer_number table_handle
      (List.replicate (words_per_kmer + 1) 0) (List.replicate sample_size 0)
      (calloc_matrix sample_size)
  | none => calloc_matrix sample_size

/-! ## `main` (kmer_ibs_pp.cpp, lines 136-232) -/

/-- The ways in which loading the table fails. -/
inductive LoadError where
  /-- Line 145: `table file is too small`. -/
  | table_file_is_too_small
  /-- Line 158: `Incorrect prefix`. -/
  | incorrect_pfx
  /-- Line 160: `number of accession in file not as defined in class`. -/
  | accession_number_mismatch
  /-- Line 162: `kmer length in table and in list are not the same`. -/
  | kmer_len_mismatch
  /-- Line 168: `size of file not valid`. -/
  | size_of_file_not_valid
deriving DecidableEq

/-- Line 139: `(accession_names.size() + WLEN - 1) / WLEN` in `size_t`
arithmetic. -/
def words_per_kmer (accession_names : Nat) : Nat :=
  ((accession_names + WLEN - 1) % U64) / WLEN

/-- The three header checks of lines 157-162, on the values read from the
file and the number of accession names. -/
def header_checks (pfx file_accession_number file_kmer_len accession_names : Nat) :
    Except LoadError Unit :=
  let kmer_len := 31
  if pfx ≠ 0xDDCCBBAA then .error .incorrect_pfx
  else if file_accession_number ≠ accession_names then .error .accession_number_mismatch
  else if file_kmer_len ≠ kmer_len then .error .kmer_len_mismatch
  else .ok ()

/-- Lines 141-170 of `main`: the size test, the header and the number of k-mers
of the table whose bytes are `content`; `accession_names` is the number of
names loaded from the names file. -/
def main_load (content : List Nat) (accession_names : Nat) : Except LoadError Nat :=
  let left_in_file := content.length
  if left_in_file ≤ 4 + 8 + 4 then .error .table_file_is_too_small
  else
    let pfx := le_value (content.take 4)
    let file_accession_number := le_value ((content.drop 4).take 8)
    let file_kmer_len := le_value ((content.drop 12).take 4)
    let left_in_file := left_in_file - (4 + 8 + 4)
    match header_checks pfx file_accession_number file_kmer_len accession_names with
    | .error e => .error e
    | .ok _ =>
      let size_per_kmer := (8 * (1 + words_per_kmer accession_names)) % U64
      if left_in_file % size_per_kmer ≠ 0 then .error .size_of_file_not_valid
      else .ok (left_in_file / size_per_kmer)

/-- Lines 173-178: the number of k-mers given to each thread. The model is
for `tra_threads ≥ 1` (with no thread the C++ code divides by zero). -/
def job_count (kmer_number tra_threads : Nat) : List Nat :=
  let jc := (List.range (tra_threads - 1)).foldl
    (fun v i => v.set i (int_cast_u64 (kmer_number / tra_threads)))
    (List.replicate tra_threads 0)
  jc.set (tra_threads - 1) (sub64 kmer_number ((jc.getD 0 0 * (tra_threads - 1)) % U64))

/-- Lines 182-188: the byte offset at which each thread starts. -/
def job_offset (words_per_kmer : Nat) (job_count : List Nat) (tra_threads : Nat) :
    List Nat :=
  (List.range' 1 (tra_threads - 1)).foldl
    (fun v i =>
      v.set i ((v.getD (i - 1) 0
        + (((8 * (words_per_kmer + 1)) % U64) * job_count.getD (i - 1) 0) % U64) % U64))
    ((List.replicate tra_threads 0).set 0 (4 + 8 + 4))

/-- Lines 192-220: the matrices returned by the threads, in thread order.
Every thread opens the table that `main` has open; `sample_size` is a
`uint32_t` field, so the number of names is truncated to 32 bits. -/
def thread_res (content : List Nat) (accession_names words_per_kmer : Nat)
    (job_count job_offset : List Nat) (tra_threads : Nat) : List (List (List Nat)) :=
  (List.range tra_threads).map (fun i =>
    partial_matrix (some content) (job_offset.getD i 0) words_per_kmer
      (job_count.getD i 0) (accession_names % 2 ^ 32))

/-- Lines 227-231: one thread's matrix is added to `ibs_matrix`. -/
def add_thread_res (accession_names : Nat) (ibs_matrix res : List (List Nat)) :
    List (List Nat) :=
  (List.range accession_names).foldl
    (fun m j => (List.range accession_names).foldl
      (fun m k => madd m j k (mget res j k)) m)
    ibs_matrix

/-- The value of `ibs_matrix[r][c]` after its declaration on line 223,
`uint64_t ibs_matrix[n][n]={0};`, where `n` is known at run time only (a GNU
extension): g++ zeroes `ibs_matrix[0][0]` and the rows `1 .. n-1`, and leaves in
`ibs_matrix[0][1 .. n-1]` the words the stack held, `stack c` for column `c`. -/
def stack_entry (stack : Nat → Nat) (r c : Nat) : Nat :=
  if r = 0 ∧ 0 < c then stack c % U64 else 0

/-- The array `ibs_matrix` after its declaration on line 223. -/
def ibs_matrix_init (accession_names : Nat) (stack : Nat → Nat) : List (List Nat) :=
  (List.range accession_names).map (fun j =>
    (List.range accession_names).map (fun k => stack_entry stack j k))

/-- Lines 223-232: the reduction of the threads' matrices into `ibs_matrix`;
`stack` is what the stack holds where `ibs_matrix` is placed. -/
def reduce (accession_names : Nat) (stack : Nat → Nat)
    (thread_res : List (List (List Nat))) : List (List Nat) :=
  thread_res.foldl (add_thread_res accession_names) (ibs_matrix_init accession_names stack)

/-- Lines 136-232 of `main`: from the bytes of the table, the number of names
and the number of threads to the final `ibs_matrix`; `stack` is what the stack
holds where `ibs_matrix` is placed. -/
def main (content : List Nat) (accession_names tra_threads : Nat) (stack : Nat → Nat) :
    Except LoadError (List (List Nat)) :=
  match main_load content accession_names with
  | .error e => .error e
  | .ok kmer_number =>
    let words_per_kmer := words_per_kmer accession_names
    let job_count := job_count kmer_number tra_threads
    let job_offset := job_offset words_per_kmer job_count tra_threads
    .ok (reduce accession_names stack
      (thread_res content accession_names words_per_kmer job_count job_offset tra_threads))

/-! ## `is_canonized_kmer_representation_flag` (src/kmerdb.cpp, lines 3-9) -/

/-- Modelled from the spec: `kmer_reverse_complement` of `kmer_general.h` (not
among the sources): the reverse complement of a sequence of `k_len` bases
packed two bits per base in the low `2 * k_len` bits, the higher bits of the
result being zero. The complement of a base `b` is taken as `3 - b`. -/
def kmer_reverse_complement (k k_len : Nat) : Nat :=
  (List.range k_len).foldl (fun acc i => acc * 4 + (3 - (k >>> (2 * i)) % 4)) 0

/-- The function `is_canonized_kmer_representation_flag`; the reverse
complement it calls is the parameter `rc`. -/
def is_canonized_kmer_representation_flag (rc : Nat → Nat → Nat) (k k_len : Nat) :
    Nat × Nat :=
  let k_rc := rc k k_len
  if k < k_rc then (k, 0x4000000000000000) else (k_rc, 0x8000000000000000)

/-! ## The output loop of `main` (kmer_ibs_pp.cpp, lines 278-284) -/

/-- The numbers written to the output file: one row per sample `col_index`,
holding `ibs_matrix[col_index][row_index]` for every `row_index`. -/
def output_rows (accession_names : Nat) (ibs_matrix : List (List Nat)) : List (List Nat) :=
  (List.range accession_names).map (fun col_index =>
    (List.range accession_names).map (fun row_index => mget ibs_matrix col_index row_index))

/-! ## The k-mer database look-ups (src/kmerdb.cpp, lines 11-115) -/

/-- The hash map `KmerUint64Hash1`. Its declaration is in `kmer_general.h`, not
among the sources; the calls made on it (`set_empty_key`, `insert` of a
`value_type` pair, `find`, `end`, `size`) are those of a sparsehash
`dense_hash_map` from 64-bit keys to 64-bit values. It is modelled as its empty
key and the list of its entries, which holds every key at most once. -/
structure KmerUint64Hash1 where
  empty_key : Nat
  entries : List (Nat × Nat)
deriving DecidableEq

/-- The call `find(k)`: the entry stored under `k`, or `none` for `end()`. -/
def KmerUint64Hash1.find (kmers : KmerUint64Hash1) (k : Nat) : Option (Nat × Nat) :=
  kmers.entries.find? (fun e => e.1 == k)

/-- The call `insert(value_type(key, value))`. As for every C++ map with unique
keys, an entry already stored under the key is left as it is. Inserting the
empty key breaks the precondition of the library (an assertion): `none`. -/
def KmerUint64Hash1.insert (kmers : KmerUint64Hash1) (kv : Nat × Nat) :
    Option KmerUint64Hash1 :=
  if kv.1 = kmers.empty_key then none
  else if (kmers.find kv.1).isSome then some kmers
  else some { kmers with entries := kv :: kmers.entries }

/-- The `while (1)` loop of lines 21-35. The first argument bounds the number
of iterations; `read_kmer_db_hash` gives it one more than the number of words
of the file, and the loop leaves at the end of the file before that. After a
read, `eof()` holds exactly when the stream is no longer good. -/
def read_kmer_db_hash_loop :
    Nat → IfStream → Nat → KmerUint64Hash1 → Option KmerUint64Hash1
  | 0, _, _, kmerss => some kmerss
  | fuel + 1, kmer_database_handle, tmp_kmer_inf, kmerss =>
    let rd := kmer_database_handle.read [tmp_kmer_inf]
    if rd.1.good then
      match kmerss.insert
          (rd.2.getD 0 0 &&& 0x3FFFFFFFFFFFFFFF, rd.2.getD 0 0 >>> 62) with
      | some kmerss1 => read_kmer_db_hash_loop fuel rd.1 (rd.2.getD 0 0) kmerss1
      | none => none
    else some kmerss

/-- The function `read_kmer_db_hash`. `NULL_KEY` is a constant of
`kmer_general.h` (not among the sources) and is a parameter; `kmer_database`
is the content of the file, or `none` when it cannot be opened (the map then
stays empty). -/
def read_kmer_db_hash (NULL_KEY : Nat) (kmer_database : Option (List Nat)) :
    Option KmerUint64Hash1 :=
  let kmerss : KmerUint64Hash1 := { empty_key := NULL_KEY, entries := [] }
  match kmer_database with
  | some content =>
    read_kmer_db_hash_loop (content.length / 8 + 1)
      { content := content, pos := 0, good := true } 0 kmerss
  | none => some kmerss

/-- The function `find_kmer_db_hash`; `rc` is the reverse complement called by
`is_canonized_kmer_representation_flag`. -/
def find_kmer_db_hash (rc : Nat → Nat → Nat) (kmers : KmerUint64Hash1)
    (kmer kmer_size : Nat) : Nat :=
  let kf := is_canonized_kmer_representation_flag rc kmer kmer_size
  let returnv := 0
  if (kmers.find kf.1).isSome then 1 else returnv

/-- The `while (1)` loop of lines 70-86, with the same bound on the number of
iterations as `read_kmer_db_hash_loop`. -/
def read_kmer_db_vector_loop : Nat → IfStream → Nat → List Nat → List Nat
  | 0, _, _, kmers_db => kmers_db
  | fuel + 1, kmers_handle, tmp_kmer_inf, kmers_db =>
    let rd := kmers_handle.read [tmp_kmer_inf]
    if rd.1.good then
      read_kmer_db_vector_loop fuel rd.1 (rd.2.getD 0 0) (kmers_db ++ [rd.2.getD 0 0])
    else kmers_db

/-- The function `read_kmer_db_vector`; `none` is the `exit(-1)` taken when the
file cannot be opened. The file is opened at its end and `seekg(0, ios::beg)`
brings the position back to 0. -/
def read_kmer_db_vector (kmer_database : Option (List Nat)) : Option (List Nat) :=
  match kmer_database with
  | some content =>
    some (read_kmer_db_vector_loop (content.length / 8 + 1)
      (IfStream.seekg { content := content, pos := content.length, good := true } 0) 0 [])
  | none => none

/-- The comparator given to `binary_search` (lines 111-112). -/
def kmer_less (a b : Nat) : Bool :=
  decide ((a &&& 0x3FFFFFFFFFFFFFFF) < (b &&& 0x3FFFFFFFFFFFFFFF))

/-- The loop of `std::lower_bound` (libstdc++) over the range that starts at
index `first` and holds `len` elements: `half = len >> 1`, and the search goes
on in the upper part when `comp(*middle, val)` and in the lower part
otherwise. The first argument bounds the number of iterations; `len` itself is
enough, since it decreases at every iteration. -/
def lower_bound_loop (kmers : List Nat) (val : Nat) : Nat → Nat → Nat → Nat
  | 0, first, _ => first
  | fuel + 1, first, len =>
    if 0 < len then
      let half := len >>> 1
      let middle := first + half
      if kmer_less (kmers.getD middle 0) val then
        lower_bound_loop kmers val fuel (middle + 1) (len - half - 1)
      else lower_bound_loop kmers val fuel first half
    else first

/-- The call `std::binary_search(kmers->begin(), kmers->end(), val, comp)`:
`lower_bound`, then `i != last && !comp(val, *i)`. -/
def binary_search (kmers : List Nat) (val : Nat) : Bool :=
  let i := lower_bound_loop kmers val kmers.length 0 kmers.length
  decide (i ≠ kmers.length) && !kmer_less val (kmers.getD i 0)

/-- The function `find_kmer_db_vector`. -/
def find_kmer_db_vector (rc : Nat → Nat → Nat) (kmers : List Nat)
    (kmer kmer_size : Nat) : Nat :=
  let kf := is_canonized_kmer_representation_flag rc kmer kmer_size
  if binary_search kmers kf.1 then 1 else 0

/-! ## Definitions used to state the properties -/

/-- A matrix of `n` rows of `n` entries. -/
def is_square (n : Nat) (m : List (List Nat)) : Prop :=
  m.length = n ∧ ∀ r, r < n → (m.getD r []).length = n

/-- The buffer contents seen by the successive iterations of `kmer_loop`. -/
def buffers_read : Nat → IfStream → List Nat → List (List Nat)
  | 0, _, _ => []
  | left + 1, table_handle, buffer =>
    (table_handle.read buffer).2 ::
      buffers_read left (table_handle.read buffer).1 (table_handle.read buffer).2

/-- The number of buffers in which samples `a` and `b` have the same presence
bit. -/
def match_count (bufs : List (List Nat)) (a b : Nat) : Nat :=
  bufs.countP (fun buf => new_bit buf a == new_bit buf b)

/-- The record number `k` (of `1 + W` words) of the records that start at byte
`offset` of a file. -/
def record_at (content : List Nat) (offset W k : Nat) : List Nat :=
  words_of_bytes (W + 1) ((content.drop (offset + 8 * (W + 1) * k)).take (8 * (W + 1)))

/-- The presence bit of sample `x` in a record as the specification writes it:
`word[1 + (x >> 6)] >> (x & 63) & 1`. -/
def presence_bit (record : List Nat) (x : Nat) : Nat :=
  (record.getD (1 + (x >>> 6)) 0 >>> (x &&& 63)) &&& 1

/-- A table of four samples and three k-mers, whose presence words are `3`, `5`
and `7`: the 16 bytes of the header, then three records of two words. -/
def example_table : List Nat :=
  bytes_of_word 0x00000004DDCCBBAA ++ bytes_of_word 0x0000001f00000000
    ++ bytes_of_words [0, 3, 0, 5, 0, 7]

/-- The inserts made by `read_kmer_db_hash` for the values `vs` of a file, in
file order. -/
def insert_all (kmers : KmerUint64Hash1) : List Nat → Option KmerUint64Hash1
  | [] => some kmers
  | v :: vs =>
    match kmers.insert (v &&& 0x3FFFFFFFFFFFFFFF, v >>> 62) with
    | some kmers1 => insert_all kmers1 vs
    | none => none

/-- A vector sorted by masked value, duplicates allowed. -/
def masked_sorted (kmers : List Nat) : Prop :=
  kmers.Pairwise (fun a b => a &&& 0x3FFFFFFFFFFFFFFF ≤ b &&& 0x3FFFFFFFFFFFFFFF)

/-- The records number `start` to `start + count - 1` of a table, whose records
begin at byte 16. -/
def records_from (content : List Nat) (W start count : Nat) : List (List Nat) :=
  (List.range' start count).map (fun k => record_at content 16 W k)

/-! ## Matrix lemmas -/

theorem is_square_calloc (n : Nat) : is_square n (calloc_matrix n) := by
  refine ⟨by simp [calloc_matrix], fun r hr => ?_⟩
  simp [calloc_matrix, List.getElem?_replicate, hr]

theorem mget_calloc (n r c : Nat) : mget (calloc_matrix n) r c = 0 := by
  unfold mget calloc_matrix
  simp only [List.getD_eq_getElem?_getD, List.getElem?_replicate]
  by_cases hr : r < n
  · by_cases hc : c < n <;> simp [hr, hc, List.getElem?_replicate]
  · simp [hr]

theorem is_square_madd {n : Nat} {m : List (List Nat)} (h : is_square n m) (r c v : Nat) :
    is_square n (madd m r c v) := by
  obtain ⟨hl, hrow⟩ := h
  refine ⟨by simp [madd, hl], fun r1 hr1 => ?_⟩
  have h1 := hrow r1 hr1
  have hlt : r1 < m.length := by omega
  unfold madd
  simp only [List.getD_eq_getElem?_getD, List.getElem?_set,
    List.getElem?_eq_getElem hlt, Option.getD_some] at h1 ⊢
  by_cases hrr : r = r1
  · subst hrr
    simp [hlt, h1]
  · simp [hrr, List.getElem?_eq_getElem hlt, h1]

theorem mget_madd {n : Nat} {m : List (List Nat)} (h : is_square n m) {r c : Nat}
    (hr : r < n) (hc : c < n) (v r1 c1 : Nat) :
    mget (madd m r c v) r1 c1
      = if r1 = r ∧ c1 = c then (mget m r c + v) % U64 else mget m r1 c1 := by
  obtain ⟨hl, hrow⟩ := h
  have hrl := hrow r hr
  have hlt : r < m.length := by omega
  unfold madd
  simp only [mget, List.getD_eq_getElem?_getD, List.getElem?_set,
    List.getElem?_eq_getElem hlt, Option.getD_some] at hrl ⊢
  have hc2 : c < m[r].length := by omega
  by_cases hrr : r1 = r
  · subst hrr
    by_cases hcc : c1 = c
    · subst hcc
      simp [hlt, hc2]
    · have hcc2 : ¬ c = c1 := fun h => hcc h.symm
      simp [hlt, hcc, hcc2]
  · have hrr2 : ¬ r = r1 := fun h => hrr h.symm
    simp [hrr, hrr2]

theorem matrix_ext {n : Nat} {a b : List (List Nat)} (ha : is_square n a) (hb : is_square n b)
    (h : ∀ r c, r < n → c < n → mget a r c = mget b r c) : a = b := by
  obtain ⟨hla, hra⟩ := ha
  obtain ⟨hlb, hrb⟩ := hb
  apply List.ext_getElem (by omega)
  intro r h1 h2
  have hr : r < n := by omega
  have e1 := hra r hr
  have e2 := hrb r hr
  simp only [List.getD_eq_getElem?_getD, List.getElem?_eq_getElem h1,
    List.getElem?_eq_getElem h2, Option.getD_some] at e1 e2
  apply List.ext_getElem (by omega)
  intro c h3 h4
  have := h r c hr (by omega)
  simp only [mget, List.getD_eq_getElem?_getD, List.getElem?_eq_getElem h1,
    List.getElem?_eq_getElem h2, Option.getD_some, List.getElem?_eq_getElem h3,
    List.getElem?_eq_getElem h4] at this
  exact this

/-! ## The loops of `partial_matrix` -/

/-- A loop `for c < k: m[row][c] += f c` over one row. -/
theorem row_fold_spec {n : Nat} {m : List (List Nat)} (h : is_square n m) {row : Nat}
    (hrow : row < n) (f : Nat → Nat) (k : Nat) (hk : k ≤ n) :
    is_square n ((List.range k).foldl (fun m c => madd m row c (f c)) m)
    ∧ ∀ r c, mget ((List.range k).foldl (fun m c => madd m row c (f c)) m) r c
      = if r = row ∧ c < k then (mget m r c + f c) % U64 else mget m r c := by
  induction k with
  | zero => exact ⟨by simpa using h, fun r c => by simp⟩
  | succ k ih =>
    obtain ⟨hsq, hget⟩ := ih (by omega)
    rw [List.range_succ, List.foldl_append]
    simp only [List.foldl_cons, List.foldl_nil]
    refine ⟨is_square_madd hsq _ _ _, fun r c => ?_⟩
    rw [mget_madd hsq hrow (by omega), hget, hget]
    by_cases h1 : r = row
    · by_cases h2 : c = k
      · subst h1; subst h2; simp
      · by_cases h3 : c < k
        · have : c < k + 1 := by omega
          simp [h1, h2, h3, this]
        · have : ¬ c < k + 1 := by omega
          simp [h1, h2, h3, this]
    · simp [h1]

theorem sample_loop_spec {n : Nat} {m : List (List Nat)} (h : is_square n m) {col : Nat}
    (hcol : col < n) (pattern : List Nat) :
    is_square n (sample_loop col pattern m)
    ∧ ∀ r c, mget (sample_loop col pattern m) r c
      = if r = col ∧ c ≤ col
        then (mget m r c + not_xor (pattern.getD col 0) (pattern.getD c 0)) % U64
        else mget m r c := by
  obtain ⟨hsq, hget⟩ := row_fold_spec h hcol
    (fun c => not_xor (pattern.getD col 0) (pattern.getD c 0)) (col + 1) (by omega)
  refine ⟨hsq, fun r c => ?_⟩
  unfold sample_loop
  rw [hget]
  simp only [Nat.lt_succ_iff]

theorem not_xor_eq (a b : Nat) : not_xor a b = if a = b then 1 else 0 := by
  simp [not_xor, Nat.xor_eq_zero]

/-- One pass of lines 70-79 over the first `k` columns. -/
theorem col_fold_spec {n : Nat} {m : List (List Nat)} (h : is_square n m) (buffer : List Nat)
    {pattern : List Nat} (hp : pattern.length = n) (k : Nat) (hk : k ≤ n) :
    ((List.range k).foldl
        (fun (st : List Nat × List (List Nat)) col_index =>
          (st.1.set col_index (new_bit buffer col_index),
            sample_loop col_index (st.1.set col_index (new_bit buffer col_index)) st.2))
        (pattern, m)).1.length = n
    ∧ (∀ i, i < k → ((List.range k).foldl
        (fun (st : List Nat × List (List Nat)) col_index =>
          (st.1.set col_index (new_bit buffer col_index),
            sample_loop col_index (st.1.set col_index (new_bit buffer col_index)) st.2))
        (pattern, m)).1.getD i 0 = new_bit buffer i)
    ∧ is_square n ((List.range k).foldl
        (fun (st : List Nat × List (List Nat)) col_index =>
          (st.1.set col_index (new_bit buffer col_index),
            sample_loop col_index (st.1.set col_index (new_bit buffer col_index)) st.2))
        (pattern, m)).2
    ∧ ∀ r c, mget ((List.range k).foldl
        (fun (st : List Nat × List (List Nat)) col_index =>
          (st.1.set col_index (new_bit buffer col_index),
            sample_loop col_index (st.1.set col_index (new_bit buffer col_index)) st.2))
        (pattern, m)).2 r c
      = if r < k ∧ c ≤ r
        then (mget m r c + (if new_bit buffer r = new_bit buffer c then 1 else 0)) % U64
        else mget m r c := by
  induction k with
  | zero => exact ⟨by simpa using hp, by simp, by simpa using h, fun r c => by simp⟩
  | succ k ih =>
    obtain ⟨hlen, hpat, hsq, hget⟩ := ih (by omega)
    rw [List.range_succ, List.foldl_append]
    simp only [List.foldl_cons, List.foldl_nil]
    generalize (List.range k).foldl
        (fun (st : List Nat × List (List Nat)) col_index =>
          (st.1.set col_index (new_bit buffer col_index),
            sample_loop col_index (st.1.set col_index (new_bit buffer col_index)) st.2))
        (pattern, m) = st at hlen hpat hsq hget
    have hk1 : k < n := by omega
    have hself : (st.1.set k (new_bit buffer k)).getD k 0 = new_bit buffer k := by
      simp [List.getD_eq_getElem?_getD, List.getElem?_set, hlen, hk1]
    have hother : ∀ i, i < k → (st.1.set k (new_bit buffer k)).getD i 0 = new_bit buffer i := by
      intro i hi
      have hne : ¬ k = i := by omega
      rw [← hpat i hi]
      simp [List.getD_eq_getElem?_getD, List.getElem?_set, hne]
    obtain ⟨hsq2, hget2⟩ := sample_loop_spec hsq hk1 (st.1.set k (new_bit buffer k))
    refine ⟨by simpa using hlen, ?_, hsq2, fun r c => ?_⟩
    · intro i hi
      by_cases hik : i = k
      · subst hik; exact hself
      · exact hother i (by omega)
    · rw [hget2, hget]
      by_cases h1 : r = k
      · subst h1
        by_cases h2 : c ≤ r
        · have h3 : (st.1.set r (new_bit buffer r)).getD c 0 = new_bit buffer c := by
            by_cases h4 : c = r
            · subst h4; exact hself
            · exact hother c (by omega)
          rw [hself, h3, not_xor_eq]
          have h5 : ¬ r < r := by omega
          simp [h2, h5]
        · simp [h2]
      · by_cases h2 : r < k
        · have : r < k + 1 := by omega
          simp [h1, h2, this]
        · have : ¬ r < k + 1 := by omega
          simp [h1, h2, this]

theorem col_loop_spec {n : Nat} {m : List (List Nat)} (h : is_square n m) (buffer : List Nat)
    {pattern : List Nat} (hp : pattern.length = n) :
    (col_loop n buffer pattern m).1.length = n
    ∧ is_square n (col_loop n buffer pattern m).2
    ∧ ∀ r c, mget (col_loop n buffer pattern m).2 r c
      = if r < n ∧ c ≤ r
        then (mget m r c + (if new_bit buffer r = new_bit buffer c then 1 else 0)) % U64
        else mget m r c := by
  obtain ⟨h1, _, h3, h4⟩ := col_fold_spec h buffer hp n (Nat.le_refl _)
  exact ⟨h1, h3, h4⟩

theorem match_count_cons (buf : List Nat) (bufs : List (List Nat)) (a b : Nat) :
    match_count (buf :: bufs) a b
      = match_count bufs a b + (if new_bit buf a = new_bit buf b then 1 else 0) := by
  simp [match_count, List.countP_cons]

theorem match_count_le (bufs : List (List Nat)) (a b : Nat) :
    match_count bufs a b ≤ bufs.length := by
  unfold match_count
  exact List.countP_le_length _

theorem match_count_self (bufs : List (List Nat)) (a : Nat) :
    match_count bufs a a = bufs.length := by
  induction bufs with
  | nil => rfl
  | cons b bs ih => rw [match_count_cons, ih]; simp

theorem buffers_read_length (left : Nat) :
    ∀ (s : IfStream) (buffer : List Nat), (buffers_read left s buffer).length = left := by
  induction left with
  | zero => intro s buffer; rfl
  | succ k ih => intro s buffer; simp [buffers_read, ih]

/-- The `while` loop adds, below and on the diagonal, the number of buffers in
which the two samples match. -/
theorem kmer_loop_spec {n : Nat} (left : Nat) :
    ∀ (s : IfStream) (buffer pattern : List Nat) (m : List (List Nat)),
      is_square n m → pattern.length = n → (∀ r c, mget m r c < U64) →
      is_square n (kmer_loop n left s buffer pattern m)
      ∧ ∀ r c, mget (kmer_loop n left s buffer pattern m) r c
        = if r < n ∧ c ≤ r
          then (mget m r c + match_count (buffers_read left s buffer) r c) % U64
          else mget m r c := by
  induction left with
  | zero =>
    intro s buffer pattern m hsq _ hb
    refine ⟨hsq, fun r c => ?_⟩
    have := hb r c
    simp [kmer_loop, buffers_read, match_count, Nat.mod_eq_of_lt this]
  | succ k ih =>
    intro s buffer pattern m hsq hp hb
    obtain ⟨hlen, hsq1, hget1⟩ := col_loop_spec hsq (s.read buffer).2 hp
    have hb1 : ∀ r c, mget (col_loop n (s.read buffer).2 pattern m).2 r c < U64 := by
      intro r c
      rw [hget1]
      split
      · exact Nat.mod_lt _ (by simp [U64])
      · exact hb r c
    obtain ⟨hsq2, hget2⟩ := ih (s.read buffer).1 (s.read buffer).2 _ _ hsq1 hlen hb1
    refine ⟨hsq2, fun r c => ?_⟩
    show mget (kmer_loop n k (s.read buffer).1 (s.read buffer).2
      (col_loop n (s.read buffer).2 pattern m).1 (col_loop n (s.read buffer).2 pattern m).2) r c = _
    rw [hget2, hget1]
    by_cases h1 : r < n ∧ c ≤ r
    · simp only [h1, and_self, if_true, buffers_read, match_count_cons]
      simp only [U64]
      omega
    · simp only [h1, if_false]

/-! ## Reading the records -/

theorem words_of_bytes_length (n : Nat) (bytes : List Nat) :
    (words_of_bytes n bytes).length = n := by
  simp [words_of_bytes]

/-- While the stream is good and the file holds `left` more records, the
buffers seen by the loop are the records of the file, in order. -/
theorem buffers_read_records (W : Nat) (left : Nat) :
    ∀ (s : IfStream) (buffer : List Nat), s.good = true → buffer.length = W + 1 →
      s.pos + 8 * (W + 1) * left ≤ s.content.length →
      buffers_read left s buffer
        = (List.range left).map (fun k => record_at s.content s.pos W k) := by
  induction left with
  | zero => intro s buffer _ _ _; rfl
  | succ k ih =>
    intro s buffer hg hl hsz
    have hmul : 8 * (W + 1) * (k + 1) = 8 * (W + 1) * k + 8 * (W + 1) := by ring
    have hgot : ((s.content.drop s.pos).take (8 * buffer.length)).length = 8 * buffer.length := by
      simp only [List.length_take, List.length_drop, hl]
      omega
    have hrd : s.read buffer = ({ s with pos := s.pos + 8 * (W + 1) },
        record_at s.content s.pos W 0) := by
      unfold IfStream.read
      rw [if_pos hg]
      simp only [hgot, if_true]
      simp [record_at, hl]
    rw [buffers_read, hrd, List.range_succ_eq_map, List.map_cons, List.map_map]
    have := ih { s with pos := s.pos + 8 * (W + 1) } (record_at s.content s.pos W 0)
      hg (words_of_bytes_length _ _) (by simp only; omega)
    rw [this]
    congr 1
    apply List.map_congr_left
    intro a _
    simp only [Function.comp, record_at, Nat.succ_eq_add_one]
    have : s.pos + 8 * (W + 1) + 8 * (W + 1) * a = s.pos + 8 * (W + 1) * (a + 1) := by ring
    rw [this]

theorem bytes_of_word_length (w : Nat) : (bytes_of_word w).length = 8 := by
  simp [bytes_of_word]

theorem bytes_of_words_length (ws : List Nat) : (bytes_of_words ws).length = 8 * ws.length := by
  induction ws with
  | nil => rfl
  | cons w ws ih =>
    simp only [bytes_of_words, List.map_cons, List.flatten_cons, List.length_append,
      bytes_of_word_length, List.length_cons] at ih ⊢
    omega

theorem bytes_of_words_append (a b : List Nat) :
    bytes_of_words (a ++ b) = bytes_of_words a ++ bytes_of_words b := by
  simp [bytes_of_words]

theorem le_value_bytes_of_word (w : Nat) (hw : w < 2 ^ 64) : le_value (bytes_of_word w) = w := by
  simp only [bytes_of_word, le_value, List.range_succ, List.range_zero, List.nil_append,
    List.cons_append, List.map_cons, List.map_nil, List.foldr_cons, List.foldr_nil,
    Nat.shiftRight_eq_div_pow, Nat.mod_mod]
  omega

/-- Reading back the memory image of a vector of 64-bit words. -/
theorem words_of_bytes_of_words (ws : List Nat) (hws : ∀ w ∈ ws, w < 2 ^ 64)
    (rest : List Nat) :
    words_of_bytes ws.length (bytes_of_words ws ++ rest) = ws := by
  induction ws with
  | nil => rfl
  | cons w ws ih =>
    have hw := hws w (List.mem_cons_self _ _)
    have ih2 := ih (fun x hx => hws x (List.mem_cons_of_mem _ hx))
    have hb : bytes_of_words (w :: ws) ++ rest
        = bytes_of_word w ++ (bytes_of_words ws ++ rest) := by
      simp [bytes_of_words]
    unfold words_of_bytes at ih2 ⊢
    rw [List.length_cons, List.range_succ_eq_map, List.map_cons, List.map_map, hb]
    refine congrArg₂ List.cons ?_ ?_
    · show le_value (List.take 8 (List.drop (8 * 0) _)) = w
      rw [Nat.mul_zero, List.drop_zero, List.take_left' (bytes_of_word_length w)]
      exact le_value_bytes_of_word w hw
    · refine Eq.trans ?_ ih2
      apply List.map_congr_left
      intro a _
      show le_value (List.take 8 (List.drop (8 * (a + 1)) _)) = _
      have : 8 * (a + 1) = (bytes_of_word w).length + 8 * a := by
        rw [bytes_of_word_length]; ring
      rw [this, List.drop_append]

/-- The records stored in a file are the records read back from it. -/
theorem record_at_records (W : Nat) :
    ∀ (recs : List (List Nat)) (pre post : List Nat),
      (∀ r ∈ recs, r.length = W + 1 ∧ ∀ w ∈ r, w < 2 ^ 64) →
      ∀ (k : Nat) (hk : k < recs.length),
        record_at (pre ++ bytes_of_words recs.flatten ++ post) pre.length W k = recs[k] := by
  intro recs
  induction recs with
  | nil => intro pre post _ k hk; simp at hk
  | cons r rs ih =>
    intro pre post hrs k hk
    obtain ⟨hlen, hwords⟩ := hrs r (List.mem_cons_self _ _)
    have hrs2 : ∀ x ∈ rs, x.length = W + 1 ∧ ∀ w ∈ x, w < 2 ^ 64 :=
      fun x hx => hrs x (List.mem_cons_of_mem _ hx)
    have hbl : (bytes_of_words r).length = 8 * (W + 1) := by
      rw [bytes_of_words_length, hlen]
    have hcontent : pre ++ bytes_of_words (r :: rs).flatten ++ post
        = (pre ++ bytes_of_words r) ++ bytes_of_words rs.flatten ++ post := by
      rw [List.flatten_cons, bytes_of_words_append]
      simp only [List.append_assoc]
    cases k with
    | zero =>
      have h1 : pre ++ bytes_of_words (r :: rs).flatten ++ post
          = pre ++ (bytes_of_words r ++ (bytes_of_words rs.flatten ++ post)) := by
        rw [hcontent]; simp only [List.append_assoc]
      unfold record_at
      rw [h1, Nat.mul_zero]
      simp only [Nat.add_zero]
      rw [List.drop_left, List.take_left' hbl]
      have := words_of_bytes_of_words r hwords []
      rw [hlen, List.append_nil] at this
      simpa using this
    | succ k =>
      have hk2 : k < rs.length := by simpa using hk
      have := ih (pre ++ bytes_of_words r) post hrs2 k hk2
      rw [List.getElem_cons_succ, ← this, hcontent]
      unfold record_at
      have hoff : pre.length + 8 * (W + 1) * (k + 1)
          = (pre ++ bytes_of_words r).length + 8 * (W + 1) * k := by
        rw [List.length_append, hbl]; ring
      rw [hoff]

theorem record_at_records_map (W : Nat) (recs : List (List Nat)) (pre post : List Nat)
    (hrecs : ∀ r ∈ recs, r.length = W + 1 ∧ ∀ w ∈ r, w < 2 ^ 64) :
    (List.range recs.length).map
        (fun k => record_at (pre ++ bytes_of_words recs.flatten ++ post) pre.length W k)
      = recs := by
  apply List.ext_getElem (by simp)
  intro k h1 h2
  rw [List.getElem_map, List.getElem_range]
  exact record_at_records W recs pre post hrecs k h2

/-! ## What `partial_matrix` returns -/

theorem partial_matrix_spec (content : List Nat) (offset W n S : Nat) :
    is_square S (partial_matrix (some content) offset W n S)
    ∧ ∀ r c, mget (partial_matrix (some content) offset W n S) r c
      = if r < S ∧ c ≤ r
        then (match_count (buffers_read n
            (IfStream.seekg { content := content, pos := content.length, good := true } offset)
            (List.replicate (W + 1) 0)) r c) % U64
        else 0 := by
  obtain ⟨h1, h2⟩ := kmer_loop_spec (n := S) n
    (IfStream.seekg { content := content, pos := content.length, good := true } offset)
    (List.replicate (W + 1) 0) (List.replicate S 0) (calloc_matrix S)
    (is_square_calloc S) (by simp) (fun r c => by rw [mget_calloc]; simp [U64])
  refine ⟨h1, fun r c => ?_⟩
  show mget (kmer_loop S n _ _ _ _) r c = _
  rw [h2, mget_calloc, Nat.zero_add]

theorem partial_matrix_none (offset W n S : Nat) :
    partial_matrix none offset W n S = calloc_matrix S := rfl

/-! ## The reduction -/

theorem add_thread_res_fold_spec {n : Nat} {m : List (List Nat)} (h : is_square n m)
    (res : List (List Nat)) (k : Nat) (hk : k ≤ n) :
    is_square n ((List.range k).foldl
        (fun m j => (List.range n).foldl (fun m c => madd m j c (mget res j c)) m) m)
    ∧ ∀ r c, mget ((List.range k).foldl
        (fun m j => (List.range n).foldl (fun m c => madd m j c (mget res j c)) m) m) r c
      = if r < k ∧ c < n then (mget m r c + mget res r c) % U64 else mget m r c := by
  induction k with
  | zero => exact ⟨by simpa using h, fun r c => by simp⟩
  | succ k ih =>
    obtain ⟨hsq, hget⟩ := ih (by omega)
    rw [List.range_succ, List.foldl_append]
    simp only [List.foldl_cons, List.foldl_nil]
    obtain ⟨hsq2, hget2⟩ := row_fold_spec hsq (show k < n by omega)
      (fun c => mget res k c) n (Nat.le_refl _)
    refine ⟨hsq2, fun r c => ?_⟩
    rw [hget2, hget]
    by_cases h1 : r = k
    · subst h1
      by_cases h2 : c < n
      · simp [h2]
      · simp [h2]
    · by_cases h2 : r < k
      · have : r < k + 1 := by omega
        simp [h1, h2, this]
      · have : ¬ r < k + 1 := by omega
        simp [h1, h2, this]

theorem add_thread_res_spec {n : Nat} {m : List (List Nat)} (h : is_square n m)
    (res : List (List Nat)) :
    is_square n (add_thread_res n m res)
    ∧ ∀ r c, mget (add_thread_res n m res) r c
      = if r < n ∧ c < n then (mget m r c + mget res r c) % U64 else mget m r c :=
  add_thread_res_fold_spec h res n (Nat.le_refl _)

theorem reduce_fold_spec {n : Nat} (parts : List (List (List Nat))) :
    ∀ (m : List (List Nat)), is_square n m → (∀ r c, mget m r c < U64) →
      is_square n (parts.foldl (add_thread_res n) m)
      ∧ ∀ r c, r < n → c < n → mget (parts.foldl (add_thread_res n) m) r c
        = (mget m r c + (parts.map (fun p => mget p r c)).sum) % U64 := by
  induction parts with
  | nil =>
    intro m hsq hb
    exact ⟨hsq, fun r c _ _ => by simp [Nat.mod_eq_of_lt (hb r c)]⟩
  | cons p ps ih =>
    intro m hsq hb
    obtain ⟨hsq1, hget1⟩ := add_thread_res_spec hsq p
    have hb1 : ∀ r c, mget (add_thread_res n m p) r c < U64 := by
      intro r c
      rw [hget1]
      split
      · exact Nat.mod_lt _ (by simp [U64])
      · exact hb r c
    obtain ⟨hsq2, hget2⟩ := ih _ hsq1 hb1
    refine ⟨hsq2, fun r c hr hc => ?_⟩
    rw [List.foldl_cons, hget2 r c hr hc, hget1]
    simp only [hr, hc, and_self, if_true, List.map_cons, List.sum_cons]
    simp only [U64]
    omega

theorem is_square_ibs_matrix_init (n : Nat) (stack : Nat → Nat) :
    is_square n (ibs_matrix_init n stack) := by
  refine ⟨by simp [ibs_matrix_init], fun r hr => ?_⟩
  simp [ibs_matrix_init, List.getD_eq_getElem?_getD, List.getElem?_map, List.getElem?_range, hr]

theorem mget_ibs_matrix_init (n : Nat) (stack : Nat → Nat) (r c : Nat) (hr : r < n)
    (hc : c < n) : mget (ibs_matrix_init n stack) r c = stack_entry stack r c := by
  simp [ibs_matrix_init, mget, List.getD_eq_getElem?_getD, List.getElem?_map,
    List.getElem?_range, hr, hc]

theorem stack_entry_lt (stack : Nat → Nat) (r c : Nat) : stack_entry stack r c < U64 := by
  unfold stack_entry
  split
  · exact Nat.mod_lt _ (by simp [U64])
  · simp [U64]

theorem mget_ibs_matrix_init_lt (n : Nat) (stack : Nat → Nat) (r c : Nat) :
    mget (ibs_matrix_init n stack) r c < U64 := by
  obtain ⟨hlen, hrow⟩ := is_square_ibs_matrix_init n stack
  by_cases hr : r < n
  · by_cases hc : c < n
    · rw [mget_ibs_matrix_init n stack r c hr hc]
      exact stack_entry_lt stack r c
    · unfold mget
      rw [List.getD_eq_default _ _ (by rw [hrow r hr]; omega)]
      simp [U64]
  · unfold mget
    rw [List.getD_eq_default (ibs_matrix_init n stack) [] (by omega)]
    simp [U64]

/-- The reduction returns, in 64-bit arithmetic, the element-wise sum added to
what `ibs_matrix` held after its declaration. -/
theorem reduce_spec (n : Nat) (stack : Nat → Nat) (parts : List (List (List Nat))) :
    is_square n (reduce n stack parts)
    ∧ ∀ r c, r < n → c < n →
      mget (reduce n stack parts) r c
        = (stack_entry stack r c + (parts.map (fun p => mget p r c)).sum) % U64 := by
  obtain ⟨h1, h2⟩ := reduce_fold_spec (n := n) parts (ibs_matrix_init n stack)
    (is_square_ibs_matrix_init n stack) (mget_ibs_matrix_init_lt n stack)
  refine ⟨h1, fun r c hr hc => ?_⟩
  unfold reduce
  rw [h2 r c hr hc, mget_ibs_matrix_init n stack r c hr hc]

/-- Reducing the threads' matrices in another order gives the same matrix. -/
theorem reduce_perm (n : Nat) (stack : Nat → Nat) (parts parts2 : List (List (List Nat)))
    (hperm : parts2.Perm parts) : reduce n stack parts2 = reduce n stack parts := by
  apply matrix_ext (reduce_spec n stack parts2).1 (reduce_spec n stack parts).1
  intro r c hr hc
  rw [(reduce_spec n stack parts2).2 r c hr hc, (reduce_spec n stack parts).2 r c hr hc,
    (hperm.map (fun p => mget p r c)).sum_eq]

theorem stack_entry_diag (stack : Nat → Nat) (j : Nat) : stack_entry stack j j = 0 := by
  unfold stack_entry
  have : ¬ (j = 0 ∧ 0 < j) := by omega
  rw [if_neg this]

theorem stack_entry_row (stack : Nat → Nat) (r c : Nat) (hr : 0 < r) :
    stack_entry stack r c = 0 := by
  unfold stack_entry
  have : ¬ (r = 0 ∧ 0 < c) := by omega
  rw [if_neg this]

/-! ## The partition -/

theorem fill_fold (c T : Nat) (k : Nat) (hk : k ≤ T) :
    (List.range k).foldl (fun (v : List Nat) i => v.set i c) (List.replicate T 0)
      = List.replicate k c ++ List.replicate (T - k) 0 := by
  induction k with
  | zero => simp
  | succ k ih =>
    rw [List.range_succ, List.foldl_append, ih (by omega)]
    simp only [List.foldl_cons, List.foldl_nil]
    apply List.ext_getElem?
    intro i
    simp only [List.getElem?_set, List.getElem?_append, List.getElem?_replicate,
      List.length_append, List.length_replicate]
    by_cases h1 : i < k
    · have h2 : i < k + 1 := by omega
      have h3 : ¬ k = i := by omega
      simp [h1, h2, h3]
    · by_cases h2 : i = k
      · subst h2
        have : i < i + (T - i) := by omega
        simp [this]
      · have h3 : ¬ i < k + 1 := by omega
        have h4 : ¬ k = i := fun h => h2 h.symm
        have h5 : i - k < T - k ↔ i - (k + 1) < T - (k + 1) := by omega
        simp [h1, h3, h4, h5]

/-- The counts computed by lines 173-178, as a list. -/
theorem job_count_eq (N T : Nat) (hT : 1 ≤ T) :
    job_count N T = List.replicate (T - 1) (int_cast_u64 (N / T))
      ++ [sub64 N (((if T = 1 then 0 else int_cast_u64 (N / T)) * (T - 1)) % U64)] := by
  unfold job_count
  simp only []
  rw [fill_fold _ T (T - 1) (by omega)]
  have h1 : T - (T - 1) = 1 := by omega
  rw [h1]
  have h0 : (List.replicate (T - 1) (int_cast_u64 (N / T)) ++ List.replicate 1 0).getD 0 0
      = if T = 1 then 0 else int_cast_u64 (N / T) := by
    by_cases h : T = 1
    · subst h; simp
    · have : 0 < T - 1 := by omega
      rw [if_neg h, List.getD_eq_getElem?_getD, List.getElem?_append_left (by simpa using this),
        List.getElem?_replicate, if_pos this]
      rfl
  rw [h0]
  apply List.ext_getElem?
  intro i
  simp only [List.getElem?_set, List.getElem?_append, List.getElem?_replicate,
    List.length_append, List.length_replicate]
  by_cases h1 : i < T - 1
  · have h3 : ¬ T - 1 = i := by omega
    simp [h1, h3]
  · by_cases h2 : i = T - 1
    · subst h2
      simp
    · have h4 : ¬ T - 1 = i := fun h => h2 h.symm
      have h5 : ¬ i - (T - 1) < 1 := by omega
      have h6 : ¬ i - (T - 1) = 0 := by omega
      simp [h1, h4, h5, h6]
      omega

theorem job_count_length (N T : Nat) (hT : 1 ≤ T) : (job_count N T).length = T := by
  rw [job_count_eq N T hT]
  simp
  omega

theorem sub64_lt (a b : Nat) : sub64 a b < U64 := Nat.mod_lt _ (by simp [U64])

theorem int_cast_u64_lt (x : Nat) : int_cast_u64 x < U64 := by
  unfold int_cast_u64 U64
  split <;> omega

/-- Whatever the cast does, the counts add up to the number of k-mers modulo
`2 ^ 64`. -/
theorem job_count_sum_mod (N T : Nat) (hT : 1 ≤ T) :
    (job_count N T).sum % U64 = N % U64 := by
  rw [job_count_eq N T hT]
  simp only [List.sum_append, List.sum_replicate, List.sum_cons, List.sum_nil, smul_eq_mul,
    Nat.add_zero]
  by_cases h : T = 1
  · subst h
    simp [sub64, U64]
  · simp only [h, if_false, sub64, U64]
    rw [Nat.mul_comm (T - 1)]
    generalize int_cast_u64 (N / T) * (T - 1) = x
    omega

/-- While the quotient fits in an `int`, the counts follow the policy: the
quotient for every thread but the last, the rest for the last. -/
theorem job_count_policy (N T : Nat) (hT : 1 ≤ T) (hN : N < 2 ^ 64) (hq : N / T < 2 ^ 31) :
    job_count N T = List.replicate (T - 1) (N / T) ++ [N - N / T * (T - 1)] := by
  have hc : int_cast_u64 (N / T) = N / T := by
    unfold int_cast_u64
    have : N / T % 2 ^ 32 = N / T := Nat.mod_eq_of_lt (by omega)
    rw [this, if_pos hq]
  have hle : N / T * (T - 1) ≤ N := by
    calc N / T * (T - 1) ≤ N / T * T := Nat.mul_le_mul_left _ (by omega)
      _ ≤ N := Nat.div_mul_le_self N T
  rw [job_count_eq N T hT, hc]
  congr 2
  by_cases h : T = 1
  · subst h
    simp only [if_true, Nat.sub_self, Nat.mul_zero, Nat.zero_mod, sub64, U64]
    omega
  · simp only [h, if_false, sub64, U64]
    generalize N / T * (T - 1) = x at hle
    omega

/-- The example of the specification: 100 k-mers, three threads, records of two
words. -/
theorem job_ranges_100_3 :
    job_count 100 3 = [33, 33, 34] ∧ job_offset 1 (job_count 100 3) 3 = [16, 544, 1072] := by
  decide

/-! ## Loading the table -/

theorem words_per_kmer_eq (S : Nat) (hS : S + 63 < 2 ^ 64) :
    words_per_kmer S = (S + 63) / 64 := by
  unfold words_per_kmer WLEN U64
  rw [Nat.mod_eq_of_lt (by omega)]
  rfl

theorem size_per_kmer_eq (S : Nat) (hS : S + 63 < 2 ^ 64) :
    (8 * (1 + words_per_kmer S)) % U64 = 8 * (1 + (S + 63) / 64) := by
  rw [words_per_kmer_eq S hS]
  unfold U64
  omega

/-- The result of `main_load` once the size test and the header checks have
passed. -/
theorem main_load_of_header_ok (content : List Nat) (S : Nat) (hF : 16 < content.length)
    (hh : header_checks (le_value (content.take 4)) (le_value ((content.drop 4).take 8))
      (le_value ((content.drop 12).take 4)) S = .ok ()) :
    main_load content S
      = if (content.length - 16) % ((8 * (1 + words_per_kmer S)) % U64) ≠ 0
        then .error .size_of_file_not_valid
        else .ok ((content.length - 16) / ((8 * (1 + words_per_kmer S)) % U64)) := by
  unfold main_load
  have h1 : ¬ content.length ≤ 4 + 8 + 4 := by omega
  simp only [h1, if_false, hh]

theorem main_load_ok_bound (content : List Nat) (S N : Nat)
    (h : main_load content S = .ok N) :
    16 < content.length ∧ N = (content.length - 16) / ((8 * (1 + words_per_kmer S)) % U64) := by
  unfold main_load at h
  by_cases h1 : content.length ≤ 4 + 8 + 4
  · simp [h1] at h
  · simp only [h1, if_false] at h
    split at h
    · simp at h
    · split at h
      · simp at h
      · refine ⟨by omega, ?_⟩
        have := Except.ok.inj h
        exact this.symm

/-! ## The diagonal -/

theorem new_bit_eq_presence_bit (record : List Nat) (x : Nat) :
    new_bit record x = presence_bit record x := by
  unfold new_bit presence_bit WLEN
  rw [Nat.add_comm]

theorem partial_matrix_diag (content : List Nat) (offset W n S j : Nat) (hj : j < S) :
    mget (partial_matrix (some content) offset W n S) j j = n % U64 := by
  rw [(partial_matrix_spec content offset W n S).2, match_count_self, buffers_read_length]
  simp [hj]

theorem range_map_getD (l : List Nat) (f : Nat → Nat) :
    (List.range l.length).map (fun i => f (l.getD i 0)) = l.map f := by
  apply List.ext_getElem (by simp)
  intro k h1 h2
  have h3 : k < l.length := by simpa using h2
  simp [List.getD_eq_getElem?_getD, List.getElem?_eq_getElem h3]

theorem sum_map_mod (l : List Nat) : (l.map (fun x => x % U64)).sum % U64 = l.sum % U64 := by
  induction l with
  | nil => rfl
  | cons a l ih =>
    simp only [List.map_cons, List.sum_cons]
    simp only [U64] at ih ⊢
    omega

/-- What `main` returns for a table that loads. -/
theorem main_of_load (content : List Nat) (S T N : Nat) (stack : Nat → Nat)
    (h : main_load content S = .ok N) :
    main content S T stack = .ok (reduce S stack (thread_res content S (words_per_kmer S)
      (job_count N T) (job_offset (words_per_kmer S) (job_count N T) T) T)) := by
  unfold main
  rw [h]

/-! ## The claims -/

/-- C1: `partial_matrix` computes pairwise match counts on the lower triangle.
For every sample count `S`, `W = ceil(S/64)`, every sequence `recs` of records
of `1 + W` 64-bit words stored in the table from byte `offset = pre.length` on,
and all `i ≤ j < S`, the entry `[j][i]` of the returned matrix is the number of
records in which the presence bits of samples `j` and `i` are equal. -/
theorem partial_matrix_lower_triangle_counts (S W : Nat) (recs : List (List Nat))
    (pre post : List Nat) (i j : Nat)
    (hW : W = (S + 63) / 64)
    (hrecs : ∀ r ∈ recs, r.length = 1 + W ∧ ∀ w ∈ r, w < 2 ^ 64)
    (hn : recs.length < 2 ^ 64) (hoff : pre.length < 2 ^ 63)
    (hij : i ≤ j) (hj : j < S) :
    mget (partial_matrix (some (pre ++ bytes_of_words recs.flatten ++ post))
        pre.length W recs.length S) j i
      = recs.countP (fun r => presence_bit r j == presence_bit r i) := by
  have hrecs2 : ∀ r ∈ recs, r.length = W + 1 ∧ ∀ w ∈ r, w < 2 ^ 64 := by
    intro r hr
    obtain ⟨h1, h2⟩ := hrecs r hr
    exact ⟨by omega, h2⟩
  have hsize : pre.length + 8 * (W + 1) * recs.length
      ≤ (pre ++ bytes_of_words recs.flatten ++ post).length := by
    have hfl : recs.flatten.length = (W + 1) * recs.length := by
      clear hn hrecs
      induction recs with
      | nil => simp
      | cons r rs ih =>
        have h1 := (hrecs2 r (List.mem_cons_self _ _)).1
        have h2 := ih (fun x hx => hrecs2 x (List.mem_cons_of_mem _ hx))
        rw [List.flatten_cons, List.length_append, h1, h2, List.length_cons]
        ring
    simp only [List.length_append, bytes_of_words_length, hfl]
    have : 8 * (W + 1) * recs.length = 8 * ((W + 1) * recs.length) := by ring
    omega
  rw [(partial_matrix_spec _ _ _ _ _).2]
  have hseek : IfStream.seekg
      { content := pre ++ bytes_of_words recs.flatten ++ post,
        pos := (pre ++ bytes_of_words recs.flatten ++ post).length, good := true } pre.length
      = { content := pre ++ bytes_of_words recs.flatten ++ post, pos := pre.length,
          good := true } := by
    unfold IfStream.seekg
    rw [if_pos hoff]
  rw [hseek, buffers_read_records W recs.length _ _ rfl (by simp) hsize]
  simp only []
  rw [record_at_records_map W recs pre post hrecs2]
  have hcount : match_count recs j i
      = recs.countP (fun r => presence_bit r j == presence_bit r i) := by
    unfold match_count
    simp only [new_bit_eq_presence_bit]
  have hle := match_count_le recs j i
  rw [if_pos ⟨hj, hij⟩, hcount] at *
  apply Nat.mod_eq_of_lt
  unfold U64
  omega

/-- C1 at a table of two records and four samples: samples 0 and 1 match in the
first record only. -/
theorem partial_matrix_lower_triangle_counts_witness :
    mget (partial_matrix (some ([] ++ bytes_of_words [[7, 3], [9, 5]].flatten ++ []))
        ([] : List Nat).length 1 [[7, 3], [9, 5]].length 4) 1 0
      = [[7, 3], [9, 5]].countP (fun r => presence_bit r 1 == presence_bit r 0)
    ∧ [[7, 3], [9, 5]].countP (fun r => presence_bit r 1 == presence_bit r 0) = 1 :=
  ⟨partial_matrix_lower_triangle_counts 4 1 [[7, 3], [9, 5]] [] [] 0 1 (by decide)
      (by decide) (by decide) (by decide) (by decide) (by decide),
    by decide⟩

/-- C2: the diagonal of the final matrix is the number of k-mers. For every
table that `main` accepts, with `N` records and `S` samples, every number of
threads `T ≥ 1` and whatever the stack holds where `ibs_matrix` is placed,
`main` returns a matrix whose entries `[j][j]`, `j < S`, are all `N`. -/
theorem main_diagonal_is_kmer_number (content : List Nat) (S T N j : Nat)
    (stack : Nat → Nat)
    (hF : content.length < 2 ^ 64) (hS : S < 2 ^ 32) (hT : 1 ≤ T)
    (hload : main_load content S = .ok N) (hj : j < S) :
    ∃ ibs_matrix, main content S T stack = .ok ibs_matrix ∧ mget ibs_matrix j j = N := by
  refine ⟨_, main_of_load content S T N stack hload, ?_⟩
  have hN : N < U64 := by
    obtain ⟨_, h2⟩ := main_load_ok_bound content S N hload
    have := Nat.div_le_self (content.length - 16) ((8 * (1 + words_per_kmer S)) % U64)
    unfold U64
    omega
  rw [(reduce_spec S stack _).2 j j hj hj, stack_entry_diag, Nat.zero_add]
  unfold thread_res
  rw [List.map_map, Nat.mod_eq_of_lt hS]
  have hparts : (fun p => mget p j j) ∘ (fun i => partial_matrix (some content)
        ((job_offset (words_per_kmer S) (job_count N T) T).getD i 0) (words_per_kmer S)
        ((job_count N T).getD i 0) S)
      = fun i => (fun x => x % U64) ((job_count N T).getD i 0) := by
    funext i
    exact partial_matrix_diag content _ _ _ S j hj
  rw [hparts]
  have hmap := range_map_getD (job_count N T) (fun x => x % U64)
  rw [job_count_length N T hT] at hmap
  rw [hmap, sum_map_mod, job_count_sum_mod N T hT]
  exact Nat.mod_eq_of_lt hN

/-- C2 at `example_table` (three k-mers, four samples) with two threads, the
stack holding `2` where `ibs_matrix` is placed. -/
theorem main_diagonal_is_kmer_number_witness :
    ∃ ibs_matrix, main example_table 4 2 (fun _ => 2) = .ok ibs_matrix
      ∧ mget ibs_matrix 1 1 = 3 :=
  main_diagonal_is_kmer_number example_table 4 2 3 1 (fun _ => 2) (by decide) (by decide)
    (by decide) rfl (by decide)

/-- C3: the reduction when the stack holds `2` where `ibs_matrix` is placed.
For the two 2 x 2 partial matrices `1 2 / 3 4` and `5 6 / 7 8` the sum of the
entries `[0][1]` is `2 + 6 = 8`, and the reduced entry is `10`: the initialiser
of line 223 does not write `ibs_matrix[0][1]`, and the loop adds the sum to the
word found there; the other entries are the sums. Likewise, for the matrices
of the two workers over `example_table`, whose entries `[0][1]`, `[0][2]`,
`[0][3]` are `0`, the reduced ones are `2`. -/
theorem reduce_adds_to_stack_word :
    reduce 2 (fun _ => 2) [[[1, 2], [3, 4]], [[5, 6], [7, 8]]] = [[6, 10], [10, 12]]
    ∧ ([[[1, 2], [3, 4]], [[5, 6], [7, 8]]].map (fun p => mget p 0 1)).sum % 2 ^ 64 = 8
    ∧ ibs_matrix_init 2 (fun _ => 2) = [[0, 2], [0, 0]]
    ∧ reduce 4 (fun _ => 2)
        [[[1, 0, 0, 0], [1, 1, 0, 0], [0, 0, 1, 0], [0, 0, 1, 1]],
         [[2, 0, 0, 0], [1, 2, 0, 0], [2, 1, 2, 0], [0, 1, 0, 2]]]
      = [[3, 2, 2, 2], [2, 3, 0, 0], [2, 1, 3, 0], [0, 1, 1, 3]] := by
  decide

/-- C4: the partition at `kmer_number = 2 ^ 32` and two threads. The quotient is
`2 ^ 31`, which `(int)` turns into `-2 ^ 31`: the first thread is given
`2 ^ 64 - 2 ^ 31` k-mers and the last one `2 ^ 32 + 2 ^ 31`. -/
theorem job_count_at_two_pow_32 :
    job_count (2 ^ 32) 2 = [18446744071562067968, 6442450944]
    ∧ 2 ^ 32 / 2 = 2147483648
    ∧ 2 ^ 32 - 2 ^ 32 / 2 * (2 - 1) = 2147483648 := by
  decide

/-- C5: the byte ranges at `kmer_number = 2 ^ 32`, two threads and records of two
words. The counts add up to `2 ^ 64 + 2 ^ 32`, and the second thread starts at
byte `2 ^ 64 - 2 ^ 35 + 16`, beyond the `2 ^ 36 + 16` bytes of the file. -/
theorem job_ranges_at_two_pow_32 :
    (job_count (2 ^ 32) 2).sum = 2 ^ 64 + 2 ^ 32
    ∧ job_offset 1 (job_count (2 ^ 32) 2) 2 = [16, 18446744039349813264]
    ∧ 16 + 2 ^ 32 * (8 * (1 + 1)) = 68719476752 := by
  decide

/-- C6: with one thread the partition is the single range that starts at byte
16 and holds all `N` k-mers. -/
theorem single_thread_partition (N W : Nat) (hN : N < 2 ^ 64) :
    job_count N 1 = [N] ∧ job_offset W (job_count N 1) 1 = [16] := by
  have h : sub64 N 0 = N := by
    unfold sub64 U64
    omega
  have hjc : job_count N 1 = [N] := by
    rw [job_count_eq N 1 (Nat.le_refl 1)]
    simp [h]
  refine ⟨hjc, ?_⟩
  rw [hjc]
  rfl

/-- C6 at `N = 5`. -/
theorem single_thread_partition_witness :
    job_count 5 1 = [5] ∧ job_offset 1 (job_count 5 1) 1 = [16] :=
  single_thread_partition 5 1 (by decide)

/-- C7: layout computation and size validation. For a file of `F` bytes and `S`
samples, with record width `8 * (1 + (S + 63) / 64)`: when `F ≤ 16` loading fails
with `table file is too small`; otherwise, the header being valid, loading
fails with `size of file not valid` exactly when `(F - 16)` is not a multiple
of the record width, and it succeeds with `(F - 16) / width` k-mers when it is. -/
theorem main_load_layout (content : List Nat) (S : Nat) (hS : S + 63 < 2 ^ 64) :
    (content.length ≤ 16 → main_load content S = .error .table_file_is_too_small)
    ∧ (16 < content.length →
        header_checks (le_value (content.take 4)) (le_value ((content.drop 4).take 8))
          (le_value ((content.drop 12).take 4)) S = .ok () →
        (main_load content S = .error .size_of_file_not_valid
            ↔ (content.length - 16) % (8 * (1 + (S + 63) / 64)) ≠ 0)
        ∧ ((content.length - 16) % (8 * (1 + (S + 63) / 64)) = 0 →
            main_load content S = .ok ((content.length - 16) / (8 * (1 + (S + 63) / 64))))
        ∧ ∀ N, main_load content S = .ok N →
            N = (content.length - 16) / (8 * (1 + (S + 63) / 64))) := by
  refine ⟨fun h => ?_, fun hF hh => ?_⟩
  · unfold main_load
    have : content.length ≤ 4 + 8 + 4 := by omega
    simp only [this, if_true]
  · have hmain := main_load_of_header_ok content S hF hh
    rw [size_per_kmer_eq S hS] at hmain
    refine ⟨?_, fun hz => ?_, fun N hN => ?_⟩
    · rw [hmain]
      by_cases hz : (content.length - 16) % (8 * (1 + (S + 63) / 64)) = 0
      · simp [hz]
      · simp [hz]
    · rw [hmain]
      simp [hz]
    · have := (main_load_ok_bound content S N hN).2
      rw [size_per_kmer_eq S hS] at this
      exact this

/-- C7 at `example_table` (64 bytes, four samples, records of 16 bytes): it
loads with three k-mers, and its first 16 bytes alone are too small a file. -/
theorem main_load_layout_witness :
    main_load example_table 4 = .ok 3
    ∧ main_load (example_table.take 16) 4 = .error .table_file_is_too_small :=
  ⟨((main_load_layout example_table 4 (by decide)).2 (by decide) rfl).2.1 (by decide),
    (main_load_layout (example_table.take 16) 4 (by decide)).1 (by decide)⟩

/-- C8: the header checks reject exactly the bad headers, each with its own
error: `Incorrect prefix` iff the prefix is not `0xDDCCBBAA`; otherwise the
accession number error iff the sample count differs from the number of names;
otherwise the k-mer length error iff the length is not 31; and success iff the
three fields are right. -/
theorem header_checks_cases (pfx file_accession_number file_kmer_len accession_names : Nat) :
    (header_checks pfx file_accession_number file_kmer_len accession_names
        = .error .incorrect_pfx ↔ pfx ≠ 0xDDCCBBAA)
    ∧ (pfx = 0xDDCCBBAA →
        (header_checks pfx file_accession_number file_kmer_len accession_names
          = .error .accession_number_mismatch ↔ file_accession_number ≠ accession_names))
    ∧ (pfx = 0xDDCCBBAA → file_accession_number = accession_names →
        (header_checks pfx file_accession_number file_kmer_len accession_names
          = .error .kmer_len_mismatch ↔ file_kmer_len ≠ 31))
    ∧ (header_checks pfx file_accession_number file_kmer_len accession_names = .ok ()
        ↔ pfx = 0xDDCCBBAA ∧ file_accession_number = accession_names ∧ file_kmer_len = 31) := by
  unfold header_checks
  by_cases h1 : pfx = 0xDDCCBBAA
  · by_cases h2 : file_accession_number = accession_names
    · by_cases h3 : file_kmer_len = 31
      · simp [h1, h2, h3]
      · simp [h1, h2, h3]
    · simp [h1, h2]
  · simp [h1]

/-- C8 at the header of `example_table` read against five names: the sample
count error. -/
theorem header_checks_cases_witness :
    header_checks 0xDDCCBBAA 4 31 5 = .error .accession_number_mismatch
    ∧ header_checks 0xDDCCBBAA 4 31 4 = .ok () :=
  ⟨((header_checks_cases 0xDDCCBBAA 4 31 5).2.1 rfl).2 (by decide),
    (header_checks_cases 0xDDCCBBAA 4 31 4).2.2.2.2 ⟨rfl, rfl, rfl⟩⟩

/-- C9, as the code has it: `is_canonized_kmer_representation_flag` returns
`(k, 0x4000000000000000)` when `k` is strictly below its reverse complement and
`(rc(k, L), 0x8000000000000000)` otherwise; a palindromic k-mer takes the second
branch and comes back as `(k, 0x8000000000000000)`. -/
theorem is_canonized_strict (rc : Nat → Nat → Nat) (k k_len : Nat) :
    (k < rc k k_len →
        is_canonized_kmer_representation_flag rc k k_len = (k, 0x4000000000000000))
    ∧ (¬ k < rc k k_len →
        is_canonized_kmer_representation_flag rc k k_len = (rc k k_len, 0x8000000000000000))
    ∧ (rc k k_len = k →
        is_canonized_kmer_representation_flag rc k k_len = (k, 0x8000000000000000)) := by
  unfold is_canonized_kmer_representation_flag
  refine ⟨fun h => by simp [h], fun h => by simp [h], fun h => ?_⟩
  simp [h]

/-- C9 at the k-mer `AT` (`k = 3`, two bases) and the k-mer `AAC`. -/
theorem is_canonized_strict_witness :
    is_canonized_kmer_representation_flag kmer_reverse_complement 3 2
        = (3, 0x8000000000000000)
    ∧ is_canonized_kmer_representation_flag kmer_reverse_complement 1 3
        = (1, 0x4000000000000000) :=
  ⟨(is_canonized_strict kmer_reverse_complement 3 2).2.2 (by decide),
    (is_canonized_strict kmer_reverse_complement 1 3).1 (by decide)⟩

/-- C9 as the specification words it fails at the palindrome `AT`: it is its own
reverse complement, and it comes back with the flag `0x8000000000000000`, not
`0x4000000000000000`. -/
theorem palindrome_takes_rc_flag :
    kmer_reverse_complement 3 2 = 3
    ∧ is_canonized_kmer_representation_flag kmer_reverse_complement 3 2
        = (3, 0x8000000000000000)
    ∧ is_canonized_kmer_representation_flag kmer_reverse_complement 3 2
        ≠ (3, 0x4000000000000000) := by
  decide

/-- C10: canonicalization is orientation-independent. For every length
`L ≤ 31` and every k-mer `k` below `2 ^ (2 * L)`, when the reverse complement
is an involution at `k`, the canonical value of `rc(k, L)` is the canonical
value of `k`. -/
theorem canonical_value_orientation_independent (rc : Nat → Nat → Nat) (k k_len : Nat)
    (_hL : k_len ≤ 31) (_hk : k < 2 ^ (2 * k_len)) (hinv : rc (rc k k_len) k_len = k) :
    (is_canonized_kmer_representation_flag rc (rc k k_len) k_len).1
      = (is_canonized_kmer_representation_flag rc k k_len).1 := by
  unfold is_canonized_kmer_representation_flag
  simp only [hinv]
  by_cases h1 : rc k k_len < k
  · have h2 : ¬ k < rc k k_len := by omega
    simp [h1, h2]
  · by_cases h2 : k < rc k k_len
    · simp [h1, h2]
    · have : rc k k_len = k := by omega
      simp [this]

/-- C10 at the k-mer `AAC` (`k = 1`, three bases), whose reverse complement is
`GTT` (`47`). -/
theorem canonical_value_orientation_independent_witness :
    (is_canonized_kmer_representation_flag kmer_reverse_complement
        (kmer_reverse_complement 1 3) 3).1
      = (is_canonized_kmer_representation_flag kmer_reverse_complement 1 3).1 :=
  canonical_value_orientation_independent kmer_reverse_complement 1 3 (by decide)
    (by decide) (by decide)

/-! ## The scan of stored records -/

theorem match_count_comm (bufs : List (List Nat)) (a b : Nat) :
    match_count bufs a b = match_count bufs b a := by
  unfold match_count
  apply List.countP_congr
  intro x _
  simp only [beq_iff_eq]
  exact eq_comm

theorem match_count_append (l1 l2 : List (List Nat)) (a b : Nat) :
    match_count (l1 ++ l2) a b = match_count l1 a b + match_count l2 a b := by
  simp [match_count]

theorem match_count_eq_countP (recs : List (List Nat)) (a b : Nat) :
    match_count recs a b = recs.countP (fun r => presence_bit r a == presence_bit r b) := by
  unfold match_count
  simp only [new_bit_eq_presence_bit]

/-- The worker's matrix when the `n` records it is given lie inside the file,
at an offset the stream can seek to. -/
theorem partial_matrix_in_file (content : List Nat) (offset W n S : Nat)
    (hoff : offset < 2 ^ 63) (hsz : offset + 8 * (W + 1) * n ≤ content.length) (r c : Nat) :
    mget (partial_matrix (some content) offset W n S) r c
      = if r < S ∧ c ≤ r
        then match_count ((List.range n).map (fun k => record_at content offset W k)) r c % U64
        else 0 := by
  rw [(partial_matrix_spec content offset W n S).2]
  have hseek : IfStream.seekg { content := content, pos := content.length, good := true } offset
      = { content := content, pos := offset, good := true } := by
    unfold IfStream.seekg
    rw [if_pos hoff]
  rw [hseek, buffers_read_records W n _ _ rfl (by simp) hsz]

theorem flatten_length_of_records (W : Nat) (recs : List (List Nat))
    (hrecs : ∀ r ∈ recs, r.length = W + 1) : recs.flatten.length = (W + 1) * recs.length := by
  induction recs with
  | nil => simp
  | cons r rs ih =>
    have h1 := hrecs r (List.mem_cons_self _ _)
    have h2 := ih (fun x hx => hrecs x (List.mem_cons_of_mem _ hx))
    rw [List.flatten_cons, List.length_append, h1, h2, List.length_cons]
    ring

/-- The worker's matrix over records stored in the file from byte `pre.length`
on. -/
theorem partial_matrix_of_records (S W : Nat) (recs : List (List Nat)) (pre post : List Nat)
    (hrecs : ∀ r ∈ recs, r.length = 1 + W ∧ ∀ w ∈ r, w < 2 ^ 64)
    (hoff : pre.length < 2 ^ 63) (r c : Nat) :
    mget (partial_matrix (some (pre ++ bytes_of_words recs.flatten ++ post))
        pre.length W recs.length S) r c
      = if r < S ∧ c ≤ r then match_count recs r c % U64 else 0 := by
  have hrecs2 : ∀ r ∈ recs, r.length = W + 1 ∧ ∀ w ∈ r, w < 2 ^ 64 := by
    intro r hr
    obtain ⟨h1, h2⟩ := hrecs r hr
    exact ⟨by omega, h2⟩
  have hfl := flatten_length_of_records W recs (fun r hr => (hrecs2 r hr).1)
  have hsize : pre.length + 8 * (W + 1) * recs.length
      ≤ (pre ++ bytes_of_words recs.flatten ++ post).length := by
    simp only [List.length_append, bytes_of_words_length, hfl]
    have : 8 * (W + 1) * recs.length = 8 * ((W + 1) * recs.length) := by ring
    omega
  rw [partial_matrix_in_file _ _ _ _ _ hoff hsize, record_at_records_map W recs pre post hrecs2]

theorem partial_matrix_upper_zero (table : Option (List Nat)) (offset W n S a b : Nat)
    (hab : a < b) : mget (partial_matrix table offset W n S) a b = 0 := by
  cases table with
  | none => rw [partial_matrix_none, mget_calloc]
  | some content =>
    rw [(partial_matrix_spec content offset W n S).2]
    have : ¬ (a < S ∧ b ≤ a) := by omega
    rw [if_neg this]

theorem mget_output_rows (S : Nat) (m : List (List Nat)) (a b : Nat) (ha : a < S) (hb : b < S) :
    mget (output_rows S m) a b = mget m a b := by
  unfold output_rows
  simp [mget, List.getD_eq_getElem?_getD, List.getElem?_map, List.getElem?_range, ha, hb]

theorem mask_eq : (0x3FFFFFFFFFFFFFFF : Nat) = 2 ^ 62 - 1 := by norm_num

theorem and_mask_eq_mod (x : Nat) : x &&& 0x3FFFFFFFFFFFFFFF = x % 2 ^ 62 := by
  rw [mask_eq, Nat.and_pow_two_sub_one_eq_mod]

theorem and_mask_lt (x : Nat) : x &&& 0x3FFFFFFFFFFFFFFF < 2 ^ 62 := by
  rw [and_mask_eq_mod]
  exact Nat.mod_lt _ (by norm_num)

theorem and_mask_of_lt (x : Nat) (hx : x < 2 ^ 62) : x &&& 0x3FFFFFFFFFFFFFFF = x := by
  rw [and_mask_eq_mod, Nat.mod_eq_of_lt hx]

theorem match_count_agree (S : Nat) (recs1 recs2 : List (List Nat))
    (hagree : List.Forall₂
      (fun r1 r2 => ∀ x, x < S → presence_bit r1 x = presence_bit r2 x) recs1 recs2)
    (a b : Nat) (ha : a < S) (hb : b < S) :
    match_count recs1 a b = match_count recs2 a b := by
  induction hagree with
  | nil => rfl
  | cons h _ ih =>
    rw [match_count_cons, match_count_cons, ih, new_bit_eq_presence_bit,
      new_bit_eq_presence_bit, new_bit_eq_presence_bit, new_bit_eq_presence_bit,
      h a ha, h b hb]

theorem read_buffer_length (s : IfStream) (buffer : List Nat) :
    (s.read buffer).2.length = buffer.length := by
  unfold IfStream.read
  split
  · simp only []
    split <;> exact words_of_bytes_length _ _
  · rfl

theorem buffers_read_lengths (left : Nat) :
    ∀ (s : IfStream) (buffer : List Nat),
      ∀ b ∈ buffers_read left s buffer, b.length = buffer.length := by
  induction left with
  | zero => intro s buffer b hb; simp [buffers_read] at hb
  | succ k ih =>
    intro s buffer b hb
    rw [buffers_read, List.mem_cons] at hb
    rcases hb with rfl | hb
    · exact read_buffer_length s buffer
    · rw [ih _ _ b hb, read_buffer_length]

/-! ## Reading a k-mer database -/

theorem read_one_word (s : IfStream) (tmp v : Nat) (rest : List Nat) (hg : s.good = true)
    (hc : s.content.drop s.pos = bytes_of_word v ++ rest) (hv : v < 2 ^ 64) :
    s.read [tmp] = ({ s with pos := s.pos + 8 * 1 }, [v]) := by
  unfold IfStream.read
  rw [if_pos hg]
  simp only [List.length_singleton, hc, List.take_left' (bytes_of_word_length v),
    bytes_of_word_length, if_true]
  have h1 : words_of_bytes 1 (bytes_of_word v) = [v] := by
    have := words_of_bytes_of_words [v] (by simpa using hv) []
    simpa [bytes_of_words] using this
  rw [h1]

theorem read_at_end (s : IfStream) (tmp : Nat) (hg : s.good = true)
    (hc : (s.content.drop s.pos).length < 8) : (s.read [tmp]).1.good = false := by
  unfold IfStream.read
  rw [if_pos hg]
  have : ¬ ((s.content.drop s.pos).take (8 * [tmp].length)).length = 8 * [tmp].length := by
    simp only [List.length_take, List.length_singleton]
    omega
  simp only [this, if_false]

theorem drop_after_word (content : List Nat) (pos v : Nat) (rest : List Nat)
    (hc : content.drop pos = bytes_of_word v ++ rest) : content.drop (pos + 8 * 1) = rest := by
  rw [← List.drop_drop, hc]
  exact List.drop_left' (bytes_of_word_length v)

/-- The loop of `read_kmer_db_vector` appends the words of the file, and stops
at the end of the file. -/
theorem read_kmer_db_vector_loop_spec (vs : List Nat) :
    ∀ (fuel : Nat) (s : IfStream) (tmp : Nat) (acc tail : List Nat),
      vs.length < fuel → s.good = true → (∀ v ∈ vs, v < 2 ^ 64) → tail.length < 8 →
      s.content.drop s.pos = bytes_of_words vs ++ tail →
      read_kmer_db_vector_loop fuel s tmp acc = acc ++ vs := by
  induction vs with
  | nil =>
    intro fuel s tmp acc tail hf hg _ ht hc
    obtain ⟨f, rfl⟩ : ∃ f, fuel = f + 1 := ⟨fuel - 1, by simp at hf; omega⟩
    have hend := read_at_end s tmp hg (by rw [hc]; simpa [bytes_of_words] using ht)
    simp [read_kmer_db_vector_loop, hend]
  | cons v vs ih =>
    intro fuel s tmp acc tail hf hg hvs ht hc
    obtain ⟨f, rfl⟩ : ∃ f, fuel = f + 1 := ⟨fuel - 1, by simp at hf; omega⟩
    have hc2 : s.content.drop s.pos = bytes_of_word v ++ (bytes_of_words vs ++ tail) := by
      rw [hc]; simp [bytes_of_words]
    have hrd := read_one_word s tmp v _ hg hc2 (hvs v (List.mem_cons_self _ _))
    have hnext := ih f { s with pos := s.pos + 8 * 1 } v (acc ++ [v]) tail
      (by simp at hf; omega) hg (fun x hx => hvs x (List.mem_cons_of_mem _ hx)) ht
      (drop_after_word s.content s.pos v _ hc2)
    simp only [hg] at hnext
    simp only [read_kmer_db_vector_loop, hrd, hg, if_true, List.getD_cons_zero]
    rw [hnext]
    simp

/-- The loop of `read_kmer_db_hash` makes the inserts of the words of the file,
in file order, and stops at the end of the file. -/
theorem read_kmer_db_hash_loop_spec (vs : List Nat) :
    ∀ (fuel : Nat) (s : IfStream) (tmp : Nat) (kmers : KmerUint64Hash1) (tail : List Nat),
      vs.length < fuel → s.good = true → (∀ v ∈ vs, v < 2 ^ 64) → tail.length < 8 →
      s.content.drop s.pos = bytes_of_words vs ++ tail →
      read_kmer_db_hash_loop fuel s tmp kmers = insert_all kmers vs := by
  induction vs with
  | nil =>
    intro fuel s tmp kmers tail hf hg _ ht hc
    obtain ⟨f, rfl⟩ : ∃ f, fuel = f + 1 := ⟨fuel - 1, by simp at hf; omega⟩
    have hend := read_at_end s tmp hg (by rw [hc]; simpa [bytes_of_words] using ht)
    simp [read_kmer_db_hash_loop, hend, insert_all]
  | cons v vs ih =>
    intro fuel s tmp kmers tail hf hg hvs ht hc
    obtain ⟨f, rfl⟩ : ∃ f, fuel = f + 1 := ⟨fuel - 1, by simp at hf; omega⟩
    have hc2 : s.content.drop s.pos = bytes_of_word v ++ (bytes_of_words vs ++ tail) := by
      rw [hc]; simp [bytes_of_words]
    have hrd := read_one_word s tmp v _ hg hc2 (hvs v (List.mem_cons_self _ _))
    simp only [read_kmer_db_hash_loop, hrd, hg, if_true, List.getD_cons_zero, insert_all]
    cases hins : kmers.insert (v &&& 0x3FFFFFFFFFFFFFFF, v >>> 62) with
    | none => rfl
    | some kmers1 =>
      have hnext := ih f { s with pos := s.pos + 8 * 1 } v kmers1 tail
        (by simp at hf; omega) hg (fun x hx => hvs x (List.mem_cons_of_mem _ hx)) ht
        (drop_after_word s.content s.pos v _ hc2)
      simp only [hg] at hnext
      exact hnext

theorem read_kmer_db_vector_words (vs : List Nat) (hvs : ∀ v ∈ vs, v < 2 ^ 64) :
    read_kmer_db_vector (some (bytes_of_words vs)) = some vs := by
  unfold read_kmer_db_vector
  have hseek : IfStream.seekg
      { content := bytes_of_words vs, pos := (bytes_of_words vs).length, good := true } 0
      = { content := bytes_of_words vs, pos := 0, good := true } := by
    unfold IfStream.seekg
    simp
  simp only [hseek]
  rw [read_kmer_db_vector_loop_spec vs _ _ 0 [] [] (by rw [bytes_of_words_length]; omega) rfl hvs
    (by simp) (by simp)]
  simp

theorem read_kmer_db_hash_words (NULL_KEY : Nat) (vs : List Nat) (hvs : ∀ v ∈ vs, v < 2 ^ 64) :
    read_kmer_db_hash NULL_KEY (some (bytes_of_words vs))
      = insert_all { empty_key := NULL_KEY, entries := [] } vs := by
  unfold read_kmer_db_hash
  simp only []
  exact read_kmer_db_hash_loop_spec vs _ _ 0 _ [] (by rw [bytes_of_words_length]; omega) rfl hvs
    (by simp) (by simp)

theorem find_cons_entry (NULL_KEY : Nat) (kv : Nat × Nat) (es : List (Nat × Nat)) (c : Nat) :
    KmerUint64Hash1.find { empty_key := NULL_KEY, entries := kv :: es } c
      = if kv.1 = c then some kv
        else KmerUint64Hash1.find { empty_key := NULL_KEY, entries := es } c := by
  unfold KmerUint64Hash1.find
  rw [List.find?_cons]
  by_cases h : kv.1 = c
  · simp [h]
  · have hb : (kv.1 == c) = false := by simpa using h
    rw [hb, if_neg h]

theorem find_first_cons (v : Nat) (vs : List Nat) (c : Nat) :
    (v :: vs).find? (fun v => v &&& 0x3FFFFFFFFFFFFFFF == c)
      = if v &&& 0x3FFFFFFFFFFFFFFF = c then some v
        else vs.find? (fun v => v &&& 0x3FFFFFFFFFFFFFFF == c) := by
  rw [List.find?_cons]
  by_cases h : v &&& 0x3FFFFFFFFFFFFFFF = c
  · simp [h]
  · have hb : (v &&& 0x3FFFFFFFFFFFFFFF == c) = false := by simpa using h
    rw [hb, if_neg h]

/-- Without the empty key among the masked values, every insert is made, and a
key is found with the flag of the first value that has it. -/
theorem insert_all_spec (vs : List Nat) :
    ∀ (kmers : KmerUint64Hash1), (∀ v ∈ vs, v &&& 0x3FFFFFFFFFFFFFFF ≠ kmers.empty_key) →
      ∃ kmers1, insert_all kmers vs = some kmers1 ∧ ∀ c, kmers1.find c
        = (kmers.find c).or
          ((vs.find? (fun v => v &&& 0x3FFFFFFFFFFFFFFF == c)).map (fun v => (c, v >>> 62))) := by
  induction vs with
  | nil =>
    intro kmers _
    exact ⟨kmers, rfl, fun c => by simp⟩
  | cons v vs ih =>
    intro kmers hkey
    obtain ⟨ek, es⟩ := kmers
    have hv : v &&& 0x3FFFFFFFFFFFFFFF ≠ ek := hkey v (List.mem_cons_self _ _)
    cases hfound : KmerUint64Hash1.find { empty_key := ek, entries := es }
        (v &&& 0x3FFFFFFFFFFFFFFF) with
    | some e =>
      have hins : KmerUint64Hash1.insert { empty_key := ek, entries := es }
          (v &&& 0x3FFFFFFFFFFFFFFF, v >>> 62) = some { empty_key := ek, entries := es } := by
        unfold KmerUint64Hash1.insert
        simp only [hv, if_false, hfound, Option.isSome_some, if_true]
      obtain ⟨k1, h1, h2⟩ := ih { empty_key := ek, entries := es }
        (fun x hx => hkey x (List.mem_cons_of_mem _ hx))
      refine ⟨k1, by simp only [insert_all, hins, h1], fun c => ?_⟩
      rw [h2 c, find_first_cons]
      by_cases hc : v &&& 0x3FFFFFFFFFFFFFFF = c
      · subst hc
        rw [hfound]
        rfl
      · rw [if_neg hc]
    | none =>
      have hins : KmerUint64Hash1.insert { empty_key := ek, entries := es }
          (v &&& 0x3FFFFFFFFFFFFFFF, v >>> 62)
          = some { empty_key := ek, entries := (v &&& 0x3FFFFFFFFFFFFFFF, v >>> 62) :: es } := by
        unfold KmerUint64Hash1.insert
        simp only [hv, if_false, hfound, Option.isSome_none, Bool.false_eq_true]
      obtain ⟨k1, h1, h2⟩ := ih
        { empty_key := ek, entries := (v &&& 0x3FFFFFFFFFFFFFFF, v >>> 62) :: es }
        (fun x hx => hkey x (List.mem_cons_of_mem _ hx))
      refine ⟨k1, by simp only [insert_all, hins, h1], fun c => ?_⟩
      rw [h2 c, find_first_cons, find_cons_entry]
      by_cases hc : v &&& 0x3FFFFFFFFFFFFFFF = c
      · subst hc
        rw [if_pos rfl, if_pos rfl, hfound]
        rfl
      · rw [if_neg hc, if_neg hc]

/-- The index built from the values `vs` of a file: every key is found with the
flag of the first value of the file that has it. -/
theorem read_kmer_db_hash_spec (NULL_KEY : Nat) (vs : List Nat) (hvs : ∀ v ∈ vs, v < 2 ^ 64)
    (hkey : ∀ v ∈ vs, v &&& 0x3FFFFFFFFFFFFFFF ≠ NULL_KEY) :
    ∃ kmers, read_kmer_db_hash NULL_KEY (some (bytes_of_words vs)) = some kmers
      ∧ ∀ c, kmers.find c
        = (vs.find? (fun v => v &&& 0x3FFFFFFFFFFFFFFF == c)).map (fun v => (c, v >>> 62)) := by
  obtain ⟨kmers, h1, h2⟩ := insert_all_spec vs { empty_key := NULL_KEY, entries := [] } hkey
  refine ⟨kmers, by rw [read_kmer_db_hash_words NULL_KEY vs hvs, h1], fun c => ?_⟩
  rw [h2 c]
  rfl

theorem find_kmer_db_hash_eq (rc : Nat → Nat → Nat) (kmers : KmerUint64Hash1)
    (kmer kmer_size : Nat) :
    find_kmer_db_hash rc kmers kmer kmer_size
      = if (kmers.find (is_canonized_kmer_representation_flag rc kmer kmer_size).1).isSome
        then 1 else 0 := rfl

/-- The look-up in the index built from `vs`, as a test on `vs`. -/
theorem find_kmer_db_hash_of_words (rc : Nat → Nat → Nat) (kmers : KmerUint64Hash1)
    (vs : List Nat) (kmer kmer_size : Nat)
    (hfind : ∀ c, kmers.find c
      = (vs.find? (fun v => v &&& 0x3FFFFFFFFFFFFFFF == c)).map (fun v => (c, v >>> 62))) :
    find_kmer_db_hash rc kmers kmer kmer_size = 1
      ↔ ∃ v ∈ vs, v &&& 0x3FFFFFFFFFFFFFFF
          = (is_canonized_kmer_representation_flag rc kmer kmer_size).1 := by
  rw [find_kmer_db_hash_eq, hfind, Option.isSome_map']
  constructor
  · intro h
    by_cases hs : (vs.find? (fun v => v &&& 0x3FFFFFFFFFFFFFFF
        == (is_canonized_kmer_representation_flag rc kmer kmer_size).1)).isSome
    · obtain ⟨v, hv, hp⟩ := List.find?_isSome.mp hs
      exact ⟨v, hv, by simpa using hp⟩
    · simp [hs] at h
  · rintro ⟨v, hv, hp⟩
    have hs : (vs.find? (fun v => v &&& 0x3FFFFFFFFFFFFFFF
        == (is_canonized_kmer_representation_flag rc kmer kmer_size).1)).isSome :=
      List.find?_isSome.mpr ⟨v, hv, by simpa using hp⟩
    simp [hs]

theorem find_kmer_db_hash_zero_or_one (rc : Nat → Nat → Nat) (kmers : KmerUint64Hash1)
    (kmer kmer_size : Nat) :
    find_kmer_db_hash rc kmers kmer kmer_size = 1
      ∨ find_kmer_db_hash rc kmers kmer kmer_size = 0 := by
  rw [find_kmer_db_hash_eq]
  split
  · exact Or.inl rfl
  · exact Or.inr rfl

/-! ## The binary search -/

theorem masked_sorted_getD {kmers : List Nat} (h : masked_sorted kmers) (i j : Nat)
    (hij : i ≤ j) (hj : j < kmers.length) :
    kmers.getD i 0 &&& 0x3FFFFFFFFFFFFFFF ≤ kmers.getD j 0 &&& 0x3FFFFFFFFFFFFFFF := by
  have hi : i < kmers.length := by omega
  rw [List.getD_eq_getElem _ _ hi, List.getD_eq_getElem _ _ hj]
  rcases Nat.lt_or_ge i j with hlt | hge
  · exact (List.pairwise_iff_getElem.mp h) i j hi hj hlt
  · have : i = j := by omega
    subst this
    exact Nat.le_refl _

theorem kmer_less_iff (a b : Nat) :
    kmer_less a b = true ↔ a &&& 0x3FFFFFFFFFFFFFFF < b &&& 0x3FFFFFFFFFFFFFFF := by
  simp [kmer_less]

/-- The loop of `lower_bound` on a sorted vector returns the partition point:
the values before it are below `val`, the values from it on are not. -/
theorem lower_bound_loop_spec {kmers : List Nat} (hs : masked_sorted kmers) (val : Nat)
    (fuel : Nat) :
    ∀ (first len : Nat), len ≤ fuel → first + len ≤ kmers.length →
      (∀ i, i < first →
        kmers.getD i 0 &&& 0x3FFFFFFFFFFFFFFF < val &&& 0x3FFFFFFFFFFFFFFF) →
      (∀ i, first + len ≤ i → i < kmers.length →
        val &&& 0x3FFFFFFFFFFFFFFF ≤ kmers.getD i 0 &&& 0x3FFFFFFFFFFFFFFF) →
      lower_bound_loop kmers val fuel first len ≤ kmers.length
      ∧ (∀ i, i < lower_bound_loop kmers val fuel first len →
          kmers.getD i 0 &&& 0x3FFFFFFFFFFFFFFF < val &&& 0x3FFFFFFFFFFFFFFF)
      ∧ (∀ i, lower_bound_loop kmers val fuel first len ≤ i → i < kmers.length →
          val &&& 0x3FFFFFFFFFFFFFFF ≤ kmers.getD i 0 &&& 0x3FFFFFFFFFFFFFFF) := by
  induction fuel with
  | zero =>
    intro first len hlen hn hlo hhi
    have : len = 0 := by omega
    subst this
    exact ⟨by simpa [lower_bound_loop] using hn, by simpa [lower_bound_loop] using hlo,
      by simpa [lower_bound_loop] using hhi⟩
  | succ fuel ih =>
    intro first len hlen hn hlo hhi
    unfold lower_bound_loop
    by_cases hpos : 0 < len
    · rw [if_pos hpos]
      simp only []
      have hhalf : len >>> 1 = len / 2 := by
        rw [Nat.shiftRight_eq_div_pow]
      rw [hhalf]
      have hmid : first + len / 2 < kmers.length := by omega
      by_cases hcmp : kmer_less (kmers.getD (first + len / 2) 0) val = true
      · rw [if_pos hcmp]
        have hlt := (kmer_less_iff _ _).mp hcmp
        apply ih (first + len / 2 + 1) (len - len / 2 - 1) (by omega) (by omega)
        · intro i hi
          have := masked_sorted_getD hs i (first + len / 2) (by omega) hmid
          omega
        · intro i hi hin
          exact hhi i (by omega) hin
      · rw [if_neg hcmp]
        have hge : val &&& 0x3FFFFFFFFFFFFFFF
            ≤ kmers.getD (first + len / 2) 0 &&& 0x3FFFFFFFFFFFFFFF := by
          have := (kmer_less_iff (kmers.getD (first + len / 2) 0) val).not.mp hcmp
          omega
        apply ih first (len / 2) (by omega) (by omega) hlo
        intro i hi hin
        have := masked_sorted_getD hs (first + len / 2) i hi hin
        omega
    · rw [if_neg hpos]
      have : len = 0 := by omega
      subst this
      exact ⟨by simpa using hn, hlo, by simpa using hhi⟩

/-- On a sorted vector `binary_search` finds exactly the masked values it
holds. -/
theorem binary_search_iff {kmers : List Nat} (hs : masked_sorted kmers) (val : Nat) :
    binary_search kmers val = true
      ↔ ∃ v ∈ kmers, v &&& 0x3FFFFFFFFFFFFFFF = val &&& 0x3FFFFFFFFFFFFFFF := by
  obtain ⟨hle, hlo, hhi⟩ := lower_bound_loop_spec hs val kmers.length 0 kmers.length
    (Nat.le_refl _) (by omega) (fun i hi => absurd hi (Nat.not_lt_zero i))
    (fun i h1 h2 => by omega)
  unfold binary_search
  simp only [Bool.and_eq_true, decide_eq_true_eq, Bool.not_eq_true', ne_eq]
  constructor
  · rintro ⟨hne, hnl⟩
    have hlt : lower_bound_loop kmers val kmers.length 0 kmers.length < kmers.length := by
      omega
    have h1 := hhi _ (Nat.le_refl _) hlt
    have h2 : ¬ (val &&& 0x3FFFFFFFFFFFFFFF
        < kmers.getD (lower_bound_loop kmers val kmers.length 0 kmers.length) 0
          &&& 0x3FFFFFFFFFFFFFFF) := by
      intro h
      have := (kmer_less_iff val _).mpr h
      rw [this] at hnl
      exact Bool.noConfusion hnl
    refine ⟨kmers.getD (lower_bound_loop kmers val kmers.length 0 kmers.length) 0, ?_, by omega⟩
    rw [List.getD_eq_getElem _ _ hlt]
    exact List.getElem_mem _
  · rintro ⟨v, hv, hkey⟩
    obtain ⟨j, hj, rfl⟩ := List.mem_iff_getElem.mp hv
    rw [← List.getD_eq_getElem kmers 0 hj] at hkey
    have hrj : lower_bound_loop kmers val kmers.length 0 kmers.length ≤ j := by
      by_contra hcon
      have := hlo j (by omega)
      omega
    refine ⟨by omega, ?_⟩
    have hsort := masked_sorted_getD hs _ j hrj hj
    cases hk : kmer_less val
        (kmers.getD (lower_bound_loop kmers val kmers.length 0 kmers.length) 0) with
    | false => rfl
    | true =>
      have := (kmer_less_iff _ _).mp hk
      omega

theorem find_kmer_db_vector_eq (rc : Nat → Nat → Nat) (kmers : List Nat)
    (kmer kmer_size : Nat) :
    find_kmer_db_vector rc kmers kmer kmer_size
      = if binary_search kmers (is_canonized_kmer_representation_flag rc kmer kmer_size).1
        then 1 else 0 := rfl

/-- The look-up in a sorted vector, as a test on its values. -/
theorem find_kmer_db_vector_sorted (rc : Nat → Nat → Nat) {kmers : List Nat}
    (hs : masked_sorted kmers) (kmer kmer_size : Nat) :
    find_kmer_db_vector rc kmers kmer kmer_size = 1
      ↔ ∃ v ∈ kmers, v &&& 0x3FFFFFFFFFFFFFFF
          = (is_canonized_kmer_representation_flag rc kmer kmer_size).1
            &&& 0x3FFFFFFFFFFFFFFF := by
  rw [find_kmer_db_vector_eq, ← binary_search_iff hs]
  cases binary_search kmers (is_canonized_kmer_representation_flag rc kmer kmer_size).1 <;> simp

theorem find_kmer_db_vector_zero_or_one (rc : Nat → Nat → Nat) (kmers : List Nat)
    (kmer kmer_size : Nat) :
    find_kmer_db_vector rc kmers kmer kmer_size = 1
      ∨ find_kmer_db_vector rc kmers kmer kmer_size = 0 := by
  rw [find_kmer_db_vector_eq]
  split
  · exact Or.inl rfl
  · exact Or.inr rfl

theorem canonical_value_le (rc : Nat → Nat → Nat) (k k_len : Nat) :
    (is_canonized_kmer_representation_flag rc k k_len).1 ≤ k := by
  unfold is_canonized_kmer_representation_flag
  by_cases h : k < rc k k_len
  · simp [h]
  · simp only [h, if_false]
    omega

theorem two_pow_le_of_le_31 (k_len : Nat) (h : k_len ≤ 31) : 2 ^ (2 * k_len) ≤ 2 ^ 62 :=
  Nat.pow_le_pow_right (by decide) (by omega)

/-- The reverse complement modelled from the specification is confined to the
low `2 * k_len` bits. -/
theorem kmer_reverse_complement_lt (k k_len : Nat) :
    kmer_reverse_complement k k_len < 2 ^ (2 * k_len) := by
  induction k_len with
  | zero => simp [kmer_reverse_complement]
  | succ n ih =>
    unfold kmer_reverse_complement at ih ⊢
    rw [List.range_succ, List.foldl_append]
    simp only [List.foldl_cons, List.foldl_nil]
    have hpow : 2 ^ (2 * (n + 1)) = 2 ^ (2 * n) * 4 := by
      rw [Nat.mul_add, Nat.pow_add]
    rw [hpow]
    generalize List.foldl (fun acc i => acc * 4 + (3 - k >>> (2 * i) % 4)) 0 (List.range n)
      = acc at ih ⊢
    generalize 2 ^ (2 * n) = p at ih ⊢
    omega

/-- The two look-ups agree on a query whose canonical value has no bit above
bit 61. -/
theorem hash_and_vector_agree_at (rc : Nat → Nat → Nat) (kmers : KmerUint64Hash1)
    (vs : List Nat) (q k_len : Nat)
    (hfind : ∀ c, kmers.find c
      = (vs.find? (fun v => v &&& 0x3FFFFFFFFFFFFFFF == c)).map (fun v => (c, v >>> 62)))
    (hs : masked_sorted vs) (hq : q < 2 ^ 62) :
    find_kmer_db_hash rc kmers q k_len = find_kmer_db_vector rc vs q k_len := by
  have hcanon : (is_canonized_kmer_representation_flag rc q k_len).1 &&& 0x3FFFFFFFFFFFFFFF
      = (is_canonized_kmer_representation_flag rc q k_len).1 :=
    and_mask_of_lt _ (Nat.lt_of_le_of_lt (canonical_value_le rc q k_len) hq)
  have h1 := find_kmer_db_hash_of_words rc kmers vs q k_len hfind
  have h2 := find_kmer_db_vector_sorted rc hs q k_len
  rw [hcanon] at h2
  rcases find_kmer_db_hash_zero_or_one rc kmers q k_len with ha | ha
  · rw [ha, h2.mpr (h1.mp ha)]
  · rcases find_kmer_db_vector_zero_or_one rc vs q k_len with hb | hb
    · rw [h1.mpr (h2.mp hb)] at ha
      exact absurd ha (by decide)
    · rw [ha, hb]

/-! ## The threads' ranges -/

theorem job_count_getD_of_policy (N T i : Nat) (hT : 1 ≤ T) (hN : N < 2 ^ 64)
    (hq : N / T < 2 ^ 31) :
    (i < T - 1 → (job_count N T).getD i 0 = N / T)
    ∧ (job_count N T).getD (T - 1) 0 = N - N / T * (T - 1) := by
  rw [job_count_policy N T hT hN hq]
  constructor
  · intro hi
    rw [List.getD_eq_getElem?_getD, List.getElem?_append_left (by simpa using hi),
      List.getElem?_replicate, if_pos hi]
    rfl
  · rw [List.getD_eq_getElem?_getD, List.getElem?_append_right (by simp)]
    simp

/-- While the quotient fits in an `int` and the file size fits in 64 bits, the
offsets of lines 182-188 are `16` plus whole records: thread `i` starts at
record `(N / T) * i`. -/
theorem job_offset_fold_policy (W N T : Nat) (hT : 1 ≤ T) (hN : N < 2 ^ 64)
    (hq : N / T < 2 ^ 31) (hfit : 16 + 8 * (W + 1) * N < 2 ^ 64) (k : Nat) (hk : k ≤ T - 1) :
    ((List.range' 1 k).foldl
        (fun (v : List Nat) i =>
          v.set i ((v.getD (i - 1) 0
            + (((8 * (W + 1)) % U64) * (job_count N T).getD (i - 1) 0) % U64) % U64))
        ((List.replicate T 0).set 0 (4 + 8 + 4))).length = T
    ∧ ∀ i, i ≤ k → ((List.range' 1 k).foldl
        (fun (v : List Nat) i =>
          v.set i ((v.getD (i - 1) 0
            + (((8 * (W + 1)) % U64) * (job_count N T).getD (i - 1) 0) % U64) % U64))
        ((List.replicate T 0).set 0 (4 + 8 + 4))).getD i 0
      = 16 + 8 * (W + 1) * (N / T * i) := by
  induction k with
  | zero =>
    refine ⟨by simp, fun i hi => ?_⟩
    have : i = 0 := by omega
    subst this
    have h0 : 0 < T := by omega
    simp [List.getD_eq_getElem?_getD, List.getElem?_set, h0]
  | succ k ih =>
    obtain ⟨hlen, hget⟩ := ih (by omega)
    rw [List.range'_1_concat, List.foldl_append]
    simp only [List.foldl_cons, List.foldl_nil]
    generalize (List.range' 1 k).foldl
        (fun (v : List Nat) i =>
          v.set i ((v.getD (i - 1) 0
            + (((8 * (W + 1)) % U64) * (job_count N T).getD (i - 1) 0) % U64) % U64))
        ((List.replicate T 0).set 0 (4 + 8 + 4)) = v at hlen hget
    refine ⟨by simpa using hlen, fun i hi => ?_⟩
    have hsub : 1 + k - 1 = k := by omega
    rw [hsub, (job_count_getD_of_policy N T k hT hN hq).1 (by omega), hget k (Nat.le_refl _)]
    have hck : N / T * (k + 1) ≤ N := by
      calc N / T * (k + 1) ≤ N / T * T := Nat.mul_le_mul_left _ (by omega)
        _ ≤ N := Nat.div_mul_le_self N T
    have hbound : 8 * (W + 1) * (N / T * (k + 1)) ≤ 8 * (W + 1) * N :=
      Nat.mul_le_mul_left _ hck
    have hexp : 8 * (W + 1) * (N / T * (k + 1))
        = 8 * (W + 1) * (N / T * k) + 8 * (W + 1) * (N / T) := by ring
    have hprod : 8 * (W + 1) % U64 * (N / T) = 8 * (W + 1) * (N / T) := by
      by_cases hc0 : N / T = 0
      · rw [hc0, Nat.mul_zero, Nat.mul_zero]
      · have h1 : 1 ≤ N / T * (k + 1) := Nat.mul_pos (Nat.pos_of_ne_zero hc0) (Nat.succ_pos k)
        have h2 : 8 * (W + 1) * 1 ≤ 8 * (W + 1) * (N / T * (k + 1)) :=
          Nat.mul_le_mul_left _ h1
        rw [Nat.mul_one] at h2
        have h3 : 8 * (W + 1) * N < 2 ^ 64 := by omega
        have h4 : 8 * (W + 1) < U64 := Nat.lt_of_le_of_lt (Nat.le_trans h2 hbound) h3
        rw [Nat.mod_eq_of_lt h4]
    by_cases hik : i = 1 + k
    · subst hik
      rw [List.getD_eq_getElem?_getD, List.getElem?_set_self (by omega)]
      simp only [Option.getD_some]
      rw [hprod]
      have hadd : 1 + k = k + 1 := by omega
      rw [hadd, hexp]
      generalize 8 * (W + 1) * (N / T * k) = x at *
      generalize 8 * (W + 1) * (N / T) = y at *
      generalize 8 * (W + 1) * N = z at *
      unfold U64
      omega
    · have hne : ¬ 1 + k = i := fun h => hik h.symm
      rw [List.getD_eq_getElem?_getD, List.getElem?_set_ne hne, ← List.getD_eq_getElem?_getD]
      exact hget i (by omega)

theorem job_offset_policy (W N T i : Nat) (hT : 1 ≤ T) (hN : N < 2 ^ 64)
    (hq : N / T < 2 ^ 31) (hfit : 16 + 8 * (W + 1) * N < 2 ^ 64) (hi : i < T) :
    (job_offset W (job_count N T) T).getD i 0 = 16 + 8 * (W + 1) * (N / T * i) := by
  unfold job_offset
  exact (job_offset_fold_policy W N T hT hN hq hfit (T - 1) (Nat.le_refl _)).2 i (by omega)

/-- A table that loads is its header followed by whole records. -/
theorem main_load_size (content : List Nat) (S N : Nat) (hS : S + 63 < 2 ^ 64)
    (h : main_load content S = .ok N) :
    content.length = 16 + 8 * (words_per_kmer S + 1) * N := by
  have hF := (main_load_ok_bound content S N h).1
  have hN := (main_load_ok_bound content S N h).2
  have hrem : (content.length - 16) % ((8 * (1 + words_per_kmer S)) % U64) = 0 := by
    unfold main_load at h
    have h1 : ¬ content.length ≤ 4 + 8 + 4 := by omega
    simp only [h1, if_false] at h
    split at h
    · simp at h
    · split at h
      · simp at h
      · rename_i hz
        simpa using hz
  have hw : (8 * (1 + words_per_kmer S)) % U64 = 8 * (words_per_kmer S + 1) := by
    rw [size_per_kmer_eq S hS, words_per_kmer_eq S hS]
    omega
  rw [hw] at hrem hN
  have := Nat.div_add_mod (content.length - 16) (8 * (words_per_kmer S + 1))
  rw [hrem, ← hN] at this
  omega

theorem records_from_shift (content : List Nat) (W start count : Nat) :
    (List.range count).map (fun k => record_at content (16 + 8 * (W + 1) * start) W k)
      = records_from content W start count := by
  unfold records_from
  rw [List.range'_eq_map_range, List.map_map]
  apply List.map_congr_left
  intro k _
  simp only [Function.comp, record_at]
  have : 16 + 8 * (W + 1) * start + 8 * (W + 1) * k = 16 + 8 * (W + 1) * (start + k) := by ring
  rw [this]

theorem records_from_zero (content : List Nat) (W count : Nat) :
    (List.range count).map (fun k => record_at content 16 W k)
      = records_from content W 0 count := by
  have := records_from_shift content W 0 count
  simpa using this

theorem records_from_append (content : List Nat) (W start m n : Nat) :
    records_from content W start m ++ records_from content W (start + m) n
      = records_from content W start (n + m) := by
  unfold records_from
  rw [← List.map_append, List.range'_append_1]

/-- The match counts of `k` consecutive chunks of `c` records add up to the
match count of the first `c * k` records. -/
theorem chunks_match_count (content : List Nat) (W c a b : Nat) (k : Nat) :
    ((List.range k).map (fun i => match_count (records_from content W (c * i) c) a b)).sum
      = match_count (records_from content W 0 (c * k)) a b := by
  induction k with
  | zero => simp [records_from, match_count]
  | succ k ih =>
    rw [List.range_succ, List.map_append, List.sum_append, ih]
    simp only [List.map_cons, List.map_nil, List.sum_cons, List.sum_nil, Nat.add_zero]
    rw [← match_count_append]
    have h := records_from_append content W 0 (c * k) c
    rw [Nat.zero_add] at h
    rw [h]
    have : c + c * k = c * (k + 1) := by ring
    rw [this]

/-- The worker of a thread that is given whole records of the table. -/
theorem partial_matrix_of_range (content : List Nat) (W S start count : Nat)
    (hsz : 16 + 8 * (W + 1) * (start + count) ≤ content.length)
    (hF : content.length < 2 ^ 63) (r c : Nat) :
    mget (partial_matrix (some content) (16 + 8 * (W + 1) * start) W count S) r c
      = if r < S ∧ c ≤ r
        then match_count (records_from content W start count) r c % U64
        else 0 := by
  have hexp : 8 * (W + 1) * (start + count) = 8 * (W + 1) * start + 8 * (W + 1) * count := by
    ring
  rw [partial_matrix_in_file content _ W count S (by omega) (by omega), records_from_shift]

/-- The matrix entry of the worker of thread `i`, while the quotient fits in an
`int`: the match count of the records `N / T * i` onwards, `N / T` of them for
every thread but the last, the rest for the last. -/
theorem thread_entry (content : List Nat) (S T N i r c : Nat)
    (hF : content.length < 2 ^ 63) (hS : S < 2 ^ 32) (hT : 1 ≤ T)
    (hload : main_load content S = .ok N) (hq : N / T < 2 ^ 31) (hi : i < T)
    (hr : r < S) (hc : c ≤ r) :
    mget (partial_matrix (some content)
        ((job_offset (words_per_kmer S) (job_count N T) T).getD i 0) (words_per_kmer S)
        ((job_count N T).getD i 0) (S % 2 ^ 32)) r c
      = match_count (records_from content (words_per_kmer S) (N / T * i)
          (if i < T - 1 then N / T else N - N / T * (T - 1))) r c % U64 := by
  have hsize := main_load_size content S N (by omega) hload
  have hpos : 1 ≤ 8 * (words_per_kmer S + 1) := by omega
  have hNle : N ≤ 8 * (words_per_kmer S + 1) * N := Nat.le_mul_of_pos_left N hpos
  have hN : N < 2 ^ 64 := by omega
  have hfit : 16 + 8 * (words_per_kmer S + 1) * N < 2 ^ 64 := by omega
  have hcount : (job_count N T).getD i 0 = if i < T - 1 then N / T else N - N / T * (T - 1) := by
    by_cases h : i < T - 1
    · rw [if_pos h, (job_count_getD_of_policy N T i hT hN hq).1 h]
    · have : i = T - 1 := by omega
      rw [if_neg h, this, (job_count_getD_of_policy N T i hT hN hq).2]
  have hle : N / T * (T - 1) ≤ N := by
    calc N / T * (T - 1) ≤ N / T * T := Nat.mul_le_mul_left _ (by omega)
      _ ≤ N := Nat.div_mul_le_self N T
  have hrange : N / T * i + (if i < T - 1 then N / T else N - N / T * (T - 1)) ≤ N := by
    by_cases h : i < T - 1
    · rw [if_pos h]
      have : N / T * i + N / T = N / T * (i + 1) := by ring
      rw [this]
      calc N / T * (i + 1) ≤ N / T * (T - 1) := Nat.mul_le_mul_left _ (by omega)
        _ ≤ N := hle
    · have : i = T - 1 := by omega
      rw [if_neg h, this]
      omega
  have hsz : 16 + 8 * (words_per_kmer S + 1)
      * (N / T * i + (if i < T - 1 then N / T else N - N / T * (T - 1))) ≤ content.length := by
    rw [hsize]
    exact Nat.add_le_add_left (Nat.mul_le_mul_left _ hrange) 16
  rw [job_offset_policy (words_per_kmer S) N T i hT hN hq hfit hi, hcount,
    Nat.mod_eq_of_lt hS, partial_matrix_of_range content (words_per_kmer S) S _ _ hsz hF,
    if_pos ⟨hr, hc⟩]

/-! ## The final matrix -/

/-- The final entry above the diagonal: the threads add nothing to it, so it
is what `ibs_matrix` held after its declaration, `0` below row 0 and the word of
the stack in row 0. -/
theorem main_upper_entry (content : List Nat) (S T : Nat) (stack : Nat → Nat)
    (ibs_matrix : List (List Nat)) (a b : Nat) (hab : a < b) (hb : b < S)
    (hmain : main content S T stack = .ok ibs_matrix) :
    mget ibs_matrix a b = stack_entry stack a b := by
  cases hl : main_load content S with
  | error e =>
    unfold main at hmain
    rw [hl] at hmain
    simp at hmain
  | ok N =>
    rw [main_of_load content S T N stack hl] at hmain
    have hm := Except.ok.inj hmain
    rw [← hm, (reduce_spec S stack _).2 a b (by omega) hb]
    unfold thread_res
    rw [List.map_map]
    have hz : (fun p => mget p a b) ∘ (fun i => partial_matrix (some content)
          ((job_offset (words_per_kmer S) (job_count N T) T).getD i 0) (words_per_kmer S)
          ((job_count N T).getD i 0) (S % 2 ^ 32))
        = fun _ => 0 := by
      funext i
      exact partial_matrix_upper_zero _ _ _ _ _ a b hab
    rw [hz]
    simp [Nat.mod_eq_of_lt (stack_entry_lt stack a b)]

/-- The final entry on and below the diagonal, while the quotient fits in an
`int`: the entry of a single scan of all the records. -/
theorem main_lower_entry (content : List Nat) (S T N : Nat) (stack : Nat → Nat)
    (hF : content.length < 2 ^ 63) (hS : S < 2 ^ 32) (hT : 1 ≤ T)
    (hload : main_load content S = .ok N) (hq : N / T < 2 ^ 31)
    (r c : Nat) (hr : r < S) (hc : c ≤ r) :
    mget (reduce S stack (thread_res content S (words_per_kmer S)
        (job_count N T) (job_offset (words_per_kmer S) (job_count N T) T) T)) r c
      = mget (partial_matrix (some content) 16 (words_per_kmer S) N S) r c := by
  have hsize := main_load_size content S N (by omega) hload
  have hsingle := partial_matrix_of_range content (words_per_kmer S) S 0 N
    (by rw [Nat.zero_add, hsize]) hF r c
  rw [Nat.mul_zero, Nat.add_zero] at hsingle
  have hst : stack_entry stack r c = 0 := by
    unfold stack_entry
    have : ¬ (r = 0 ∧ 0 < c) := by omega
    rw [if_neg this]
  rw [(reduce_spec S stack _).2 r c hr (by omega), hsingle, hst, Nat.zero_add]
  unfold thread_res
  rw [List.map_map, if_pos ⟨hr, hc⟩]
  have hparts : (List.range T).map ((fun p => mget p r c) ∘ (fun i =>
        partial_matrix (some content)
          ((job_offset (words_per_kmer S) (job_count N T) T).getD i 0) (words_per_kmer S)
          ((job_count N T).getD i 0) (S % 2 ^ 32)))
      = ((List.range T).map (fun i =>
          match_count (records_from content (words_per_kmer S) (N / T * i)
            (if i < T - 1 then N / T else N - N / T * (T - 1))) r c)).map
          (fun x => x % U64) := by
    rw [List.map_map]
    apply List.map_congr_left
    intro i hi
    exact thread_entry content S T N i r c hF hS hT hload hq (List.mem_range.mp hi) hr hc
  rw [hparts, sum_map_mod]
  congr 1
  obtain ⟨T1, rfl⟩ : ∃ T1, T = T1 + 1 := ⟨T - 1, by omega⟩
  rw [List.range_succ, List.map_append, List.sum_append]
  have hfirst : (List.range T1).map (fun i =>
        match_count (records_from content (words_per_kmer S) (N / (T1 + 1) * i)
          (if i < T1 + 1 - 1 then N / (T1 + 1) else N - N / (T1 + 1) * (T1 + 1 - 1))) r c)
      = (List.range T1).map (fun i =>
        match_count (records_from content (words_per_kmer S) (N / (T1 + 1) * i)
          (N / (T1 + 1))) r c) := by
    apply List.map_congr_left
    intro i hi
    have : i < T1 + 1 - 1 := by
      have := List.mem_range.mp hi
      omega
    rw [if_pos this]
  rw [hfirst, chunks_match_count]
  simp only [List.map_cons, List.map_nil, List.sum_cons, List.sum_nil, Nat.add_zero,
    Nat.add_sub_cancel, Nat.lt_irrefl, if_false]
  rw [← match_count_append]
  have happ := records_from_append content (words_per_kmer S) 0 (N / (T1 + 1) * T1)
    (N - N / (T1 + 1) * T1)
  rw [Nat.zero_add] at happ
  have hle : N / (T1 + 1) * T1 ≤ N := by
    calc N / (T1 + 1) * T1 ≤ N / (T1 + 1) * (T1 + 1) := Nat.mul_le_mul_left _ (by omega)
      _ ≤ N := Nat.div_mul_le_self N (T1 + 1)
  rw [happ, Nat.sub_add_cancel hle]

/-- The final matrix, while the quotient fits in an `int`: the matrix of a
single scan of all the records, but for the entries `[0][c]`, `c ≥ 1`, which
hold the words of the stack. -/
theorem main_entry (content : List Nat) (S T N : Nat) (stack : Nat → Nat)
    (hF : content.length < 2 ^ 63) (hS : S < 2 ^ 32) (hT : 1 ≤ T)
    (hload : main_load content S = .ok N) (hq : N / T < 2 ^ 31) :
    ∃ ibs_matrix, main content S T stack = .ok ibs_matrix
      ∧ ∀ r c, r < S → c < S → mget ibs_matrix r c
        = if r = 0 ∧ 0 < c then stack c % U64
          else mget (partial_matrix (some content) 16 (words_per_kmer S) N S) r c := by
  refine ⟨_, main_of_load content S T N stack hload, fun r c hr hc => ?_⟩
  by_cases hcr : c ≤ r
  · have hn : ¬ (r = 0 ∧ 0 < c) := by omega
    rw [if_neg hn]
    exact main_lower_entry content S T N stack hF hS hT hload hq r c hr hcr
  · have hup := main_upper_entry content S T stack _ r c (by omega) hc
      (main_of_load content S T N stack hload)
    rw [hup, partial_matrix_upper_zero _ _ _ _ _ r c (by omega)]
    rfl

/-! ## The claims, continued -/

/-- C11, as the code has it: the canonical value returned by
`is_canonized_kmer_representation_flag` is the smaller of `k` and `rc(k, L)` in
the plain order of the 64-bit values; when neither of the two has a bit set
above bit 61 it is one of the two and the smaller one in the order of the
values masked with `0x3FFFFFFFFFFFFFFF` as well. -/
theorem canonical_value_is_plain_min (rc : Nat → Nat → Nat) (k k_len : Nat) :
    (is_canonized_kmer_representation_flag rc k k_len).1 = min k (rc k k_len)
    ∧ (k < 2 ^ 62 → rc k k_len < 2 ^ 62 →
        ((is_canonized_kmer_representation_flag rc k k_len).1 = k
          ∨ (is_canonized_kmer_representation_flag rc k k_len).1 = rc k k_len)
        ∧ (is_canonized_kmer_representation_flag rc k k_len).1 &&& 0x3FFFFFFFFFFFFFFF
          = min (k &&& 0x3FFFFFFFFFFFFFFF) (rc k k_len &&& 0x3FFFFFFFFFFFFFFF)) := by
  have hmin : (is_canonized_kmer_representation_flag rc k k_len).1 = min k (rc k k_len) := by
    unfold is_canonized_kmer_representation_flag
    by_cases h : k < rc k k_len
    · simp only [h, if_true]
      exact (Nat.min_eq_left (Nat.le_of_lt h)).symm
    · simp only [h, if_false]
      exact (Nat.min_eq_right (Nat.le_of_not_lt h)).symm
  refine ⟨hmin, fun hk hr => ⟨?_, ?_⟩⟩
  · rw [hmin]
    exact Nat.le_total k (rc k k_len) |>.elim (fun h => Or.inl (Nat.min_eq_left h))
      (fun h => Or.inr (Nat.min_eq_right h))
  · have hlt : min k (rc k k_len) < 2 ^ 62 := Nat.lt_of_le_of_lt (Nat.min_le_left _ _) hk
    rw [hmin, and_mask_of_lt _ hlt, and_mask_of_lt _ hk, and_mask_of_lt _ hr]

/-- C11 (amended) at the k-mer `AAC` (`k = 1`, three bases), whose reverse
complement is `47`. -/
theorem canonical_value_is_plain_min_witness :
    ((is_canonized_kmer_representation_flag kmer_reverse_complement 1 3).1 = 1
      ∨ (is_canonized_kmer_representation_flag kmer_reverse_complement 1 3).1
          = kmer_reverse_complement 1 3)
    ∧ (is_canonized_kmer_representation_flag kmer_reverse_complement 1 3).1
        &&& 0x3FFFFFFFFFFFFFFF
      = min (1 &&& 0x3FFFFFFFFFFFFFFF) (kmer_reverse_complement 1 3 &&& 0x3FFFFFFFFFFFFFFF) :=
  (canonical_value_is_plain_min kmer_reverse_complement 1 3).2 (by decide) (by decide)

/-- C11 as the specification words it fails at `AAC` tagged with
`0x4000000000000000`: masked, the k-mer is `1` and is below its reverse
complement `47`, yet the code returns `47`, since it compares the tagged
value. -/
theorem tagged_kmer_is_not_masked_min :
    kmer_reverse_complement 0x4000000000000001 3 = 47
    ∧ 0x4000000000000001 &&& 0x3FFFFFFFFFFFFFFF = 1
    ∧ 47 &&& 0x3FFFFFFFFFFFFFFF = 47
    ∧ is_canonized_kmer_representation_flag kmer_reverse_complement 0x4000000000000001 3
        = (47, 0x8000000000000000) := by
  decide

/-- C16, as the code has it: for every scanned range of stored records and
all samples `a, b < S`, the number of records in which `a` and `b` have equal
presence bits is held by the entry `[max a b][min a b]`, on or below the
diagonal; the entry `[a][b]` with `a < b` is `0`, so the matrix is not
symmetric. -/
theorem match_count_is_held_below_diagonal (S W : Nat) (recs : List (List Nat))
    (pre post : List Nat) (a b : Nat)
    (_hW : W = (S + 63) / 64)
    (hrecs : ∀ r ∈ recs, r.length = 1 + W ∧ ∀ w ∈ r, w < 2 ^ 64)
    (hn : recs.length < 2 ^ 64) (hoff : pre.length < 2 ^ 63)
    (ha : a < S) (hb : b < S) :
    mget (partial_matrix (some (pre ++ bytes_of_words recs.flatten ++ post))
        pre.length W recs.length S) (max a b) (min a b)
      = recs.countP (fun r => presence_bit r a == presence_bit r b)
    ∧ (a < b →
        mget (partial_matrix (some (pre ++ bytes_of_words recs.flatten ++ post))
          pre.length W recs.length S) a b = 0) := by
  refine ⟨?_, fun hab => partial_matrix_upper_zero _ _ _ _ _ _ _ hab⟩
  have hle := match_count_le recs (max a b) (min a b)
  have hlt : max a b < S := by
    rcases Nat.le_total a b with h | h
    · rw [Nat.max_eq_right h]; exact hb
    · rw [Nat.max_eq_left h]; exact ha
  have hmm : min a b ≤ max a b := Nat.le_trans (Nat.min_le_left a b) (Nat.le_max_left a b)
  rw [partial_matrix_of_records S W recs pre post hrecs hoff, if_pos ⟨hlt, hmm⟩,
    Nat.mod_eq_of_lt (by unfold U64; omega), ← match_count_eq_countP]
  rcases Nat.le_total a b with h | h
  · rw [Nat.max_eq_right h, Nat.min_eq_left h, match_count_comm]
  · rw [Nat.max_eq_left h, Nat.min_eq_right h]

/-- C16 (amended) at one record of four samples with presence bits `1, 1, 0, 0`:
the pair `(0, 1)` is counted at `[1][0]` and `[0][1]` stays `0`. -/
theorem match_count_is_held_below_diagonal_witness :
    mget (partial_matrix (some ([] ++ bytes_of_words [[7, 3]].flatten ++ []))
        ([] : List Nat).length 1 [[7, 3]].length 4) (max 0 1) (min 0 1)
      = [[7, 3]].countP (fun r => presence_bit r 0 == presence_bit r 1)
    ∧ (0 < 1 →
        mget (partial_matrix (some ([] ++ bytes_of_words [[7, 3]].flatten ++ []))
          ([] : List Nat).length 1 [[7, 3]].length 4) 0 1 = 0) :=
  match_count_is_held_below_diagonal 4 1 [[7, 3]] [] [] 0 1 (by decide) (by decide)
    (by decide) (by decide) (by decide) (by decide)

/-- C16 as the specification words it fails at its own example, one record of
four samples with presence bits `1, 1, 0, 0`: samples 0 and 1 match in the
record, and so do samples 2 and 3, but `matrix[0][1]` and `matrix[2][3]` are
`0` while `matrix[1][0]` and `matrix[3][2]` are `1`. -/
theorem upper_entries_of_example_are_zero :
    partial_matrix (some (bytes_of_words [7, 3])) 0 1 1 4
      = [[1, 0, 0, 0], [1, 1, 0, 0], [0, 0, 1, 0], [0, 0, 1, 1]]
    ∧ [[7, 3]].countP (fun r => presence_bit r 0 == presence_bit r 1) = 1
    ∧ mget (partial_matrix (some (bytes_of_words [7, 3])) 0 1 1 4) 0 1 = 0
    ∧ mget (partial_matrix (some (bytes_of_words [7, 3])) 0 1 1 4) 1 0 = 1
    ∧ mget (partial_matrix (some (bytes_of_words [7, 3])) 0 1 1 4) 2 3 = 0 := by
  decide

/-- C17: the upper triangle at `example_table` (four samples, three k-mers)
scanned by two threads, when the stack holds `2` where `ibs_matrix` is placed.
The two workers return matrices whose entries above the diagonal are `0`, but
the final entries `[0][1]`, `[0][2]`, `[0][3]`, and the numbers printed for
them, are `2`: the initialiser of line 223 does not write them. -/
theorem final_row_zero_holds_stack_words :
    job_count 3 2 = [1, 2] ∧ job_offset 1 (job_count 3 2) 2 = [16, 32]
    ∧ thread_res example_table 4 1 [1, 2] [16, 32] 2
      = [[[1, 0, 0, 0], [1, 1, 0, 0], [0, 0, 1, 0], [0, 0, 1, 1]],
         [[2, 0, 0, 0], [1, 2, 0, 0], [2, 1, 2, 0], [0, 1, 0, 2]]]
    ∧ main example_table 4 2 (fun _ => 2)
      = .ok [[3, 2, 2, 2], [2, 3, 0, 0], [2, 1, 3, 0], [0, 1, 1, 3]]
    ∧ output_rows 4 [[3, 2, 2, 2], [2, 3, 0, 0], [2, 1, 3, 0], [0, 1, 1, 3]]
      = [[3, 2, 2, 2], [2, 3, 0, 0], [2, 1, 3, 0], [0, 1, 1, 3]] :=
  ⟨by decide, by decide, by decide, rfl, by decide⟩

/-- C18: the scan ignores the k-mer word and the padding bits. For every `S`
and `W = ceil(S/64)`, if two sequences of stored records agree, record by
record, on the presence bit of every sample `x < S`, then `partial_matrix`
returns the same matrix for both, whatever else the records hold. -/
theorem partial_matrix_depends_on_presence_bits (S W : Nat) (recs1 recs2 : List (List Nat))
    (pre1 post1 pre2 post2 : List Nat)
    (_hW : W = (S + 63) / 64)
    (hrecs1 : ∀ r ∈ recs1, r.length = 1 + W ∧ ∀ w ∈ r, w < 2 ^ 64)
    (hrecs2 : ∀ r ∈ recs2, r.length = 1 + W ∧ ∀ w ∈ r, w < 2 ^ 64)
    (hoff1 : pre1.length < 2 ^ 63) (hoff2 : pre2.length < 2 ^ 63)
    (hagree : List.Forall₂
      (fun r1 r2 => ∀ x, x < S → presence_bit r1 x = presence_bit r2 x) recs1 recs2) :
    partial_matrix (some (pre1 ++ bytes_of_words recs1.flatten ++ post1))
        pre1.length W recs1.length S
      = partial_matrix (some (pre2 ++ bytes_of_words recs2.flatten ++ post2))
        pre2.length W recs2.length S := by
  apply matrix_ext (partial_matrix_spec _ _ _ _ _).1 (partial_matrix_spec _ _ _ _ _).1
  intro r c hr hc
  rw [partial_matrix_of_records S W recs1 pre1 post1 hrecs1 hoff1,
    partial_matrix_of_records S W recs2 pre2 post2 hrecs2 hoff2,
    match_count_agree S recs1 recs2 hagree r c hr hc]

/-- C18 at two records of four samples that differ in the k-mer word (`7` and
`9`) and in the padding bits of the presence word (`3` and `0xF3`). -/
theorem partial_matrix_depends_on_presence_bits_witness :
    partial_matrix (some ([] ++ bytes_of_words [[7, 3]].flatten ++ []))
        ([] : List Nat).length 1 [[7, 3]].length 4
      = partial_matrix (some ([] ++ bytes_of_words [[9, 0xF3]].flatten ++ []))
        ([] : List Nat).length 1 [[9, 0xF3]].length 4 :=
  partial_matrix_depends_on_presence_bits 4 1 [[7, 3]] [[9, 0xF3]] [] [] [] []
    (by decide) (by decide) (by decide) (by decide) (by decide)
    (List.Forall₂.cons (by decide) List.Forall₂.nil)

/-- C20: presence-bit extraction stays inside the record buffer. For every
sample count `S`, with `words_per_kmer` as line 139 computes it and a buffer of
`words_per_kmer + 1` words, the index `(col_index >> 6) + 1` is below
`words_per_kmer + 1 = (S + 63) / 64 + 1` for every `col_index < S`, also in
every buffer the loop reads, and the indices `[col_index][sample_index1]` with
`sample_index1 ≤ col_index < S` are inside the `S x S` allocation. -/
theorem presence_index_in_bounds (S col_index sample_index1 : Nat) (hS : S + 63 < 2 ^ 64)
    (hcol : col_index < S) (hs : sample_index1 ≤ col_index) :
    words_per_kmer S = (S + 63) / 64
    ∧ (col_index >>> 6) + 1 < words_per_kmer S + 1
    ∧ (col_index >>> 6) + 1 < (List.replicate (words_per_kmer S + 1) 0).length
    ∧ (∀ (table_handle : IfStream) (n : Nat),
        ∀ buffer ∈ buffers_read n table_handle (List.replicate (words_per_kmer S + 1) 0),
          (col_index >>> 6) + 1 < buffer.length)
    ∧ col_index < (calloc_matrix S).length
    ∧ sample_index1 < ((calloc_matrix S).getD col_index []).length := by
  have hw := words_per_kmer_eq S hS
  have hidx : (col_index >>> 6) + 1 < words_per_kmer S + 1 := by
    rw [hw, Nat.shiftRight_eq_div_pow]
    omega
  refine ⟨hw, hidx, by simpa using hidx, fun table_handle n buffer hb => ?_, ?_, ?_⟩
  · rw [buffers_read_lengths n table_handle _ buffer hb]
    simpa using hidx
  · simp [calloc_matrix, hcol]
  · rw [(is_square_calloc S).2 col_index hcol]
    omega

/-- C20 at 65 samples (two presence words): the last sample reads word 2 of a
buffer of three words. -/
theorem presence_index_in_bounds_witness :
    words_per_kmer 65 = (65 + 63) / 64
    ∧ (64 >>> 6) + 1 < words_per_kmer 65 + 1
    ∧ (64 >>> 6) + 1 < (List.replicate (words_per_kmer 65 + 1) 0).length
    ∧ (∀ (table_handle : IfStream) (n : Nat),
        ∀ buffer ∈ buffers_read n table_handle (List.replicate (words_per_kmer 65 + 1) 0),
          (64 >>> 6) + 1 < buffer.length)
    ∧ 64 < (calloc_matrix 65).length
    ∧ 3 < ((calloc_matrix 65).getD 64 []).length :=
  presence_index_in_bounds 65 64 3 (by decide) (by decide) (by decide)

/-- C12: hash-index membership ignores orientation flags. For every database
file holding the 64-bit values `vs`, none of which has the empty key as masked
value, and every query `(kmer, L)`, `find_kmer_db_hash` on the index built by
`read_kmer_db_hash` returns `1` when some value `v` of the file has
`v & 0x3FFFFFFFFFFFFFFF` equal to the canonical value of the query, and `0`
otherwise; neither `v >> 62` nor the flag of the query takes part. -/
theorem find_kmer_db_hash_membership (rc : Nat → Nat → Nat) (NULL_KEY : Nat) (vs : List Nat)
    (kmer kmer_size : Nat) (hvs : ∀ v ∈ vs, v < 2 ^ 64)
    (hkey : ∀ v ∈ vs, v &&& 0x3FFFFFFFFFFFFFFF ≠ NULL_KEY) :
    ∃ kmers, read_kmer_db_hash NULL_KEY (some (bytes_of_words vs)) = some kmers
      ∧ (find_kmer_db_hash rc kmers kmer kmer_size = 1
          ↔ ∃ v ∈ vs, v &&& 0x3FFFFFFFFFFFFFFF
              = (is_canonized_kmer_representation_flag rc kmer kmer_size).1)
      ∧ (find_kmer_db_hash rc kmers kmer kmer_size = 0
          ↔ ¬ ∃ v ∈ vs, v &&& 0x3FFFFFFFFFFFFFFF
              = (is_canonized_kmer_representation_flag rc kmer kmer_size).1) := by
  obtain ⟨kmers, h1, h2⟩ := read_kmer_db_hash_spec NULL_KEY vs hvs hkey
  have hiff := find_kmer_db_hash_of_words rc kmers vs kmer kmer_size h2
  refine ⟨kmers, h1, hiff, ?_⟩
  rw [← hiff]
  rcases find_kmer_db_hash_zero_or_one rc kmers kmer kmer_size with h | h
  · rw [h]; simp
  · rw [h]; simp

/-- C12 at a file of three values, the first two with the key `1` under
different flags: the query `GTT` (`47`, canonical value `1`) is found. -/
theorem find_kmer_db_hash_membership_witness :
    ∃ kmers, read_kmer_db_hash 0xFFFFFFFFFFFFFFFF
        (some (bytes_of_words [0x4000000000000001, 0x8000000000000001, 9])) = some kmers
      ∧ find_kmer_db_hash kmer_reverse_complement kmers 47 3 = 1 := by
  obtain ⟨kmers, h1, h2, _⟩ := find_kmer_db_hash_membership kmer_reverse_complement
    0xFFFFFFFFFFFFFFFF [0x4000000000000001, 0x8000000000000001, 9] 47 3
    (by decide) (by decide)
  exact ⟨kmers, h1, h2.mpr ⟨0x4000000000000001, by decide, by decide⟩⟩

/-- C13, as the code has it: `insert` leaves an entry that is already stored
untouched, so after `read_kmer_db_hash` the flag stored under each key `c` is
`v >> 62` for the first value `v` of the file, in file order, with
`v & 0x3FFFFFFFFFFFFFFF = c`, and a key no value has is not stored. -/
theorem hash_build_keeps_first_flag (NULL_KEY : Nat) (vs : List Nat)
    (hvs : ∀ v ∈ vs, v < 2 ^ 64) (hkey : ∀ v ∈ vs, v &&& 0x3FFFFFFFFFFFFFFF ≠ NULL_KEY) :
    ∃ kmers, read_kmer_db_hash NULL_KEY (some (bytes_of_words vs)) = some kmers
      ∧ ∀ c, kmers.find c
        = (vs.find? (fun v => v &&& 0x3FFFFFFFFFFFFFFF == c)).map (fun v => (c, v >>> 62)) :=
  read_kmer_db_hash_spec NULL_KEY vs hvs hkey

/-- C13 (amended) at a file whose two values have the key `5`, with flags `1`
and `2`: the flag found is `1`. -/
theorem hash_build_keeps_first_flag_witness :
    ∃ kmers, read_kmer_db_hash 0xFFFFFFFFFFFFFFFF
        (some (bytes_of_words [0x4000000000000005, 0x8000000000000005])) = some kmers
      ∧ kmers.find 5 = some (5, 1) := by
  obtain ⟨kmers, h1, h2⟩ := hash_build_keeps_first_flag 0xFFFFFFFFFFFFFFFF
    [0x4000000000000005, 0x8000000000000005] (by decide) (by decide)
  exact ⟨kmers, h1, by rw [h2 5]; decide⟩

/-- C13 as the specification words it fails at the file `0x4000000000000005,
0x8000000000000005`: both values have the key `5`, the last one has the flag
`2`, and the flag stored under `5` is `1`, that of the first one. -/
theorem last_flag_is_not_stored :
    read_kmer_db_hash 0xFFFFFFFFFFFFFFFF
        (some (bytes_of_words [0x4000000000000005, 0x8000000000000005]))
      = some { empty_key := 0xFFFFFFFFFFFFFFFF, entries := [(5, 1)] }
    ∧ 0x4000000000000005 &&& 0x3FFFFFFFFFFFFFFF = 5
    ∧ 0x8000000000000005 &&& 0x3FFFFFFFFFFFFFFF = 5
    ∧ 0x8000000000000005 >>> 62 = 2
    ∧ KmerUint64Hash1.find { empty_key := 0xFFFFFFFFFFFFFFFF, entries := [(5, 1)] } 5
        = some (5, 1) := by
  decide

/-- C14: sorted-vector membership is exact under the sortedness precondition.
For every vector that is non-decreasing in `v & 0x3FFFFFFFFFFFFFFF` (duplicates
allowed) and every query `(kmer, L)` with `L ≤ 31`, `find_kmer_db_vector`
returns `1` when some element `v` has `v & 0x3FFFFFFFFFFFFFFF` equal to the
masked canonical value of the query, and `0` otherwise. -/
theorem find_kmer_db_vector_membership (rc : Nat → Nat → Nat) (kmers : List Nat)
    (kmer kmer_size : Nat) (hs : masked_sorted kmers) (_hL : kmer_size ≤ 31) :
    (find_kmer_db_vector rc kmers kmer kmer_size = 1
        ↔ ∃ v ∈ kmers, v &&& 0x3FFFFFFFFFFFFFFF
            = (is_canonized_kmer_representation_flag rc kmer kmer_size).1
              &&& 0x3FFFFFFFFFFFFFFF)
    ∧ (find_kmer_db_vector rc kmers kmer kmer_size = 0
        ↔ ¬ ∃ v ∈ kmers, v &&& 0x3FFFFFFFFFFFFFFF
            = (is_canonized_kmer_representation_flag rc kmer kmer_size).1
              &&& 0x3FFFFFFFFFFFFFFF) := by
  have hiff := find_kmer_db_vector_sorted rc hs kmer kmer_size
  refine ⟨hiff, ?_⟩
  rw [← hiff]
  rcases find_kmer_db_vector_zero_or_one rc kmers kmer kmer_size with h | h
  · rw [h]; simp
  · rw [h]; simp

/-- C14 at a sorted vector with a duplicate masked value: the query `GTT`
(`47`, canonical value `1`) is found, the query `2` (canonical value `2`) is
not. -/
theorem find_kmer_db_vector_membership_witness :
    find_kmer_db_vector kmer_reverse_complement
        [1, 0x4000000000000003, 3, 0x8000000000000005, 9] 47 3 = 1
    ∧ find_kmer_db_vector kmer_reverse_complement
        [1, 0x4000000000000003, 3, 0x8000000000000005, 9] 2 3 = 0 :=
  ⟨(find_kmer_db_vector_membership kmer_reverse_complement
      [1, 0x4000000000000003, 3, 0x8000000000000005, 9] 47 3
      (by unfold masked_sorted; decide) (by decide)).1.mpr ⟨1, by decide, by decide⟩,
    (find_kmer_db_vector_membership kmer_reverse_complement
      [1, 0x4000000000000003, 3, 0x8000000000000005, 9] 2 3
      (by unfold masked_sorted; decide) (by decide)).2.mpr (by decide)⟩

/-- C15: the two index structures agree. For every database file holding the
64-bit values `vs`, sorted by masked value and free of the empty key, every
length `L ≤ 31` and every k-mer `k` confined to the low `2 * L` bits, whose
reverse complement is confined to them too, `find_kmer_db_hash` on the index
built by `read_kmer_db_hash` and `find_kmer_db_vector` on the vector built by
`read_kmer_db_vector` return the same value for the query `k` and for the query
`rc(k, L)`. -/
theorem hash_and_vector_agree (rc : Nat → Nat → Nat) (NULL_KEY : Nat) (vs : List Nat)
    (k k_len : Nat) (hvs : ∀ v ∈ vs, v < 2 ^ 64)
    (hkey : ∀ v ∈ vs, v &&& 0x3FFFFFFFFFFFFFFF ≠ NULL_KEY) (hs : masked_sorted vs)
    (hL : k_len ≤ 31) (hk : k < 2 ^ (2 * k_len)) (hrc : rc k k_len < 2 ^ (2 * k_len)) :
    ∃ kmers_hash kmers_vector,
      read_kmer_db_hash NULL_KEY (some (bytes_of_words vs)) = some kmers_hash
      ∧ read_kmer_db_vector (some (bytes_of_words vs)) = some kmers_vector
      ∧ find_kmer_db_hash rc kmers_hash k k_len = find_kmer_db_vector rc kmers_vector k k_len
      ∧ find_kmer_db_hash rc kmers_hash (rc k k_len) k_len
          = find_kmer_db_vector rc kmers_vector (rc k k_len) k_len := by
  obtain ⟨kmers, h1, h2⟩ := read_kmer_db_hash_spec NULL_KEY vs hvs hkey
  have hpow := two_pow_le_of_le_31 k_len hL
  exact ⟨kmers, vs, h1, read_kmer_db_vector_words vs hvs,
    hash_and_vector_agree_at rc kmers vs k k_len h2 hs (by omega),
    hash_and_vector_agree_at rc kmers vs (rc k k_len) k_len h2 hs (by omega)⟩

/-- C15 at a sorted file of five values and the k-mer `AAC` (`k = 1`, three
bases). -/
theorem hash_and_vector_agree_witness :
    ∃ kmers_hash kmers_vector,
      read_kmer_db_hash 0xFFFFFFFFFFFFFFFF
          (some (bytes_of_words [1, 0x4000000000000003, 3, 0x8000000000000005, 9]))
        = some kmers_hash
      ∧ read_kmer_db_vector
          (some (bytes_of_words [1, 0x4000000000000003, 3, 0x8000000000000005, 9]))
        = some kmers_vector
      ∧ find_kmer_db_hash kmer_reverse_complement kmers_hash 1 3
          = find_kmer_db_vector kmer_reverse_complement kmers_vector 1 3
      ∧ find_kmer_db_hash kmer_reverse_complement kmers_hash (kmer_reverse_complement 1 3) 3
          = find_kmer_db_vector kmer_reverse_complement kmers_vector
              (kmer_reverse_complement 1 3) 3 :=
  hash_and_vector_agree kmer_reverse_complement 0xFFFFFFFFFFFFFFFF
    [1, 0x4000000000000003, 3, 0x8000000000000005, 9] 1 3 (by decide) (by decide)
    (by unfold masked_sorted; decide) (by decide) (by decide) (by decide)

/-- C19: the parallel and the sequential computation at `example_table` (four
samples, three k-mers), when the stack holds `2` where `ibs_matrix` is placed.
A single scan of the three records from byte 16 returns a matrix whose row 0
is `3, 0, 0, 0`; `main` returns, with two threads as with one, a matrix whose
row 0 is `3, 2, 2, 2`. -/
theorem main_differs_from_single_scan :
    partial_matrix (some example_table) 16 (words_per_kmer 4) 3 4
      = [[3, 0, 0, 0], [2, 3, 0, 0], [2, 1, 3, 0], [0, 1, 1, 3]]
    ∧ main example_table 4 2 (fun _ => 2)
      = .ok [[3, 2, 2, 2], [2, 3, 0, 0], [2, 1, 3, 0], [0, 1, 1, 3]]
    ∧ main example_table 4 1 (fun _ => 2)
      = .ok [[3, 2, 2, 2], [2, 3, 0, 0], [2, 1, 3, 0], [0, 1, 1, 3]] :=
  ⟨by decide, rfl, rfl⟩

end IBScpp


